import Mathlib

/-!
A shallow embedding of the `nixts` repository's core builders
(`src/builders/homeManagerBuilder.ts`, `src/builders/flakeBuilder.ts`,
`src/builders/devShellBuilder.ts`, `src/nixpkgs/python.ts`), together with
proofs checking the natural-language specification against this embedding.

Modelling conventions:
  * TypeScript `any` values flowing into the serializer are modelled by the
    tagged union `NixVal` (string, number, boolean, array, plain object in
    insertion order, and null/undefined collapsed into `NixVal.null`).
  * JavaScript numbers are modelled as integers (`Int`); `String(value)`
    on an integral number prints its decimal form, modelled by `intRepr`.
  * JavaScript objects preserve (string-keyed) insertion order and
    re-assignment keeps the original position; they are modelled as
    association lists with `alistSet` overwriting in place.
  * Methods that can `throw` are modelled in `Except String`; a thrown
    error carries its message and, since the model is state-passing, an
    error result means the receiver was left unchanged.
  * ES modules run in strict mode, so assigning a property to a primitive
    value throws a `TypeError`; assigning a named property to an array
    succeeds but is invisible to the serializer (which only walks the
    array's elements), so the model returns the state unchanged there.
-/

/-- The structured values fed to the serializer: the `StructuredValue`
tagged union of the spec.  `null` also stands for `undefined` and any
other unrecognized shape, which the serializer renders as `"null"`. -/
inductive NixVal where
  | str (s : String)
  | num (n : Int)
  | bool (b : Bool)
  | list (xs : List NixVal)
  | attrs (kvs : List (String × NixVal))
  | null
deriving Inhabited

/-- JavaScript `Array.prototype.join(sep)`. -/
def jsJoin (sep : String) : List String → String
  | [] => ""
  | [x] => x
  | x :: y :: rest => x ++ sep ++ jsJoin sep (y :: rest)

/-- Decimal digits of a natural number, most significant first,
prepended to `acc`. -/
def natToDigits (n : Nat) (acc : List Char) : List Char :=
  if h : n < 10 then Nat.digitChar n :: acc
  else natToDigits (n / 10) (Nat.digitChar (n % 10) :: acc)
termination_by n
decreasing_by
  exact Nat.div_lt_self (by omega) (by omega)

/-- JavaScript `String(n)` for an integral number: decimal form,
with a leading minus sign when negative. -/
def intRepr : Int → String
  | .ofNat m => ⟨natToDigits m []⟩
  | .negSucc m => ⟨'-' :: natToDigits (m + 1) []⟩

/-- Lookup in an insertion-ordered association list
(JavaScript `obj[key]`, `undefined` mapped to `none`). -/
def alistGet {α : Type} : List (String × α) → String → Option α
  | [], _ => none
  | (k, v) :: rest, key => if k = key then some v else alistGet rest key

/-- Assignment `obj[key] = value` on an insertion-ordered association
list: overwrite in place when the key exists, append otherwise. -/
def alistSet {α : Type} : List (String × α) → String → α → List (String × α)
  | [], key, value => [(key, value)]
  | (k, v) :: rest, key, value =>
    if k = key then (k, value) :: rest else (k, v) :: alistSet rest key value

/-- The indentation produced by `"  ".repeat(indent)`: the two-space
unit repeated `n` times. -/
def indentStr : Nat → String
  | 0 => ""
  | n + 1 => "  " ++ indentStr n

/-- JavaScript `path.split('.')` at the character level: split on every
dot, keeping empty segments (`""` splits to `[""]`). -/
def splitOnDot : List Char → List (List Char)
  | [] => [[]]
  | c :: cs =>
    if c = '.' then [] :: splitOnDot cs
    else
      match splitOnDot cs with
      | [] => [[c]]
      | w :: ws => (c :: w) :: ws

/-- JavaScript `path.split('.')` on strings. -/
def jsSplitDot (s : String) : List String := (splitOnDot s.data).map String.mk

/-- JavaScript truthiness of a `NixVal` (`!value` negated): empty
strings, zero, `false` and `null`/`undefined` are falsy; every object
and array, including empty ones, is truthy. -/
def jsTruthy : NixVal → Bool
  | .str s => !s.data.isEmpty
  | .num n => n != 0
  | .bool b => b
  | .list _ => true
  | .attrs _ => true
  | .null => false

mutual

/-- `HomeManagerBuilder.toNixValue(value, indent)`: the recursive
structured-value serializer, translated line by line from the source. -/
def toNixValue : NixVal → Nat → String
  | .str s, _ => "\"" ++ s ++ "\""
  | .num n, _ => intRepr n
  | .bool b, _ => if b then "true" else "false"
  | .list [], _ => "[]"
  | .list (x :: xs), indent =>
    "[\n" ++ jsJoin "\n" (serElems (x :: xs) (indent + 1)) ++ "\n" ++ indentStr indent ++ "]"
  | .attrs [], _ => "\x7b\x7d"
  | .attrs (kv :: kvs), indent =>
    "\x7b\n" ++ jsJoin "\n" (serFields (kv :: kvs) (indent + 1)) ++ "\n" ++ indentStr indent ++ "\x7d"
  | .null, _ => "null"

/-- `value.map(v => nextIndentStr + this.toNixValue(v, indent + 1))`
from the array branch of `toNixValue`. -/
def serElems : List NixVal → Nat → List String
  | [], _ => []
  | v :: vs, ind => (indentStr ind ++ toNixValue v ind) :: serElems vs ind

/-- `entries.map(([k, v]) => nextIndentStr + k + " = " + this.toNixValue(v, indent + 1) + ";")`
from the object branch of `toNixValue`. -/
def serFields : List (String × NixVal) → Nat → List String
  | [], _ => []
  | (k, v) :: kvs, ind =>
    (indentStr ind ++ k ++ " = " ++ toNixValue v ind ++ ";") :: serFields kvs ind

end

/-- `HomeManagerBuilder.setNestedValue(obj, path, value)`, state-passing.
The source walks `path.split('.')`, executing
`if (!current[part]) current[part] = {}; current = current[part];` for
every non-final segment and finally `current[last] = value`.  In strict
mode a property write on a (truthy) primitive throws a `TypeError`;
a falsy slot is first overwritten with a fresh empty object; a named
property written on an array is invisible to the serializer, so the map
is returned unchanged.  The empty-path case is unreachable from the
source (`split('.')` never yields an empty array). -/
def setNestedValue : List (String × NixVal) → List String → NixVal →
    Except String (List (String × NixVal))
  | m, [], _ => .ok m
  | m, [k], v => .ok (alistSet m k v)
  | m, k :: k2 :: rest, v =>
    match alistGet m k with
    | some (.attrs a) =>
      (setNestedValue a (k2 :: rest) v).map fun a2 => alistSet m k (.attrs a2)
    | some (.list _) => .ok m
    | some w =>
      if jsTruthy w then .error "TypeError"
      else (setNestedValue [] (k2 :: rest) v).map fun a2 => alistSet m k (.attrs a2)
    | none =>
      (setNestedValue [] (k2 :: rest) v).map fun a2 => alistSet m k (.attrs a2)

/-- The mutable state of a `HomeManagerBuilder`. -/
structure HomeManagerBuilder where
  username : String
  homeDirectory : Option String := none
  stateVersion : String := "24.05"
  packages : List String := []
  programs : List (String × NixVal) := []
  services : List (String × NixVal) := []
  homeConfig : List (String × NixVal) := []
  modules : List String := []

namespace HomeManagerBuilder

/-- `new HomeManagerBuilder(username)`. -/
def init (username : String) : HomeManagerBuilder := { username := username }

/-- `withHomeDirectory(path)`. -/
def withHomeDirectory (b : HomeManagerBuilder) (path : String) : HomeManagerBuilder :=
  { b with homeDirectory := some path }

/-- `withStateVersion(version)`. -/
def withStateVersion (b : HomeManagerBuilder) (version : String) : HomeManagerBuilder :=
  { b with stateVersion := version }

/-- `withPackages(pkgs)` (`this.packages.push(...pkgs)`). -/
def withPackages (b : HomeManagerBuilder) (pkgs : List String) : HomeManagerBuilder :=
  { b with packages := b.packages ++ pkgs }

/-- `enableProgram(name, config)` (overwrite per name). -/
def enableProgram (b : HomeManagerBuilder) (name : String)
    (config : NixVal := .attrs [("enable", .bool true)]) : HomeManagerBuilder :=
  { b with programs := alistSet b.programs name config }

/-- `enableService(name, config)` (overwrite per name). -/
def enableService (b : HomeManagerBuilder) (name : String)
    (config : NixVal := .attrs [("enable", .bool true)]) : HomeManagerBuilder :=
  { b with services := alistSet b.services name config }

/-- `setHomeConfig(path, value)`. -/
def setHomeConfig (b : HomeManagerBuilder) (path : String) (value : NixVal) :
    HomeManagerBuilder :=
  { b with homeConfig := alistSet b.homeConfig path value }

/-- `Object.assign(target, value)`, shallow merge.  An object source
copies its own enumerable entries in order; a string source spreads as
indexed characters; other primitive sources contribute nothing. -/
def objectAssign (target : List (String × NixVal)) : NixVal → List (String × NixVal)
  | .attrs kvs => kvs.foldl (fun t kv => alistSet t kv.1 kv.2) target
  | .str s =>
    (s.data.enum.map fun ci => (intRepr ci.1, NixVal.str (String.mk [ci.2]))).foldl
      (fun t kv => alistSet t kv.1 kv.2) target
  | _ => target

/-- `set(path, value)` on the already-split path segments.  Translated
branch by branch from the source: `programs`/`services` with exactly two
segments overwrite the whole entry; with more segments a missing or falsy
entry is replaced by a fresh object and `setNestedValue` handles the rest;
`home` with two or more segments goes through `setNestedValue` on the
extra-settings map; a bare `home` is a shallow `Object.assign`; anything
else is a no-op. -/
def setParts (b : HomeManagerBuilder) (parts : List String) (value : NixVal) :
    Except String HomeManagerBuilder :=
  match parts with
  | "programs" :: programName :: [] =>
    .ok { b with programs := alistSet b.programs programName value }
  | "programs" :: programName :: p :: ps =>
    (match alistGet b.programs programName with
     | some (.attrs a) =>
       (setNestedValue a (p :: ps) value).map fun a2 =>
         { b with programs := alistSet b.programs programName (.attrs a2) }
     | some (.list _) => .ok b
     | some w =>
       if jsTruthy w then .error "TypeError"
       else (setNestedValue [] (p :: ps) value).map fun a2 =>
         { b with programs := alistSet b.programs programName (.attrs a2) }
     | none =>
       (setNestedValue [] (p :: ps) value).map fun a2 =>
         { b with programs := alistSet b.programs programName (.attrs a2) })
  | "services" :: serviceName :: [] =>
    .ok { b with services := alistSet b.services serviceName value }
  | "services" :: serviceName :: p :: ps =>
    (match alistGet b.services serviceName with
     | some (.attrs a) =>
       (setNestedValue a (p :: ps) value).map fun a2 =>
         { b with services := alistSet b.services serviceName (.attrs a2) }
     | some (.list _) => .ok b
     | some w =>
       if jsTruthy w then .error "TypeError"
       else (setNestedValue [] (p :: ps) value).map fun a2 =>
         { b with services := alistSet b.services serviceName (.attrs a2) }
     | none =>
       (setNestedValue [] (p :: ps) value).map fun a2 =>
         { b with services := alistSet b.services serviceName (.attrs a2) })
  | "home" :: p :: ps =>
    (setNestedValue b.homeConfig (p :: ps) value).map fun m =>
      { b with homeConfig := m }
  | "home" :: [] => .ok { b with homeConfig := objectAssign b.homeConfig value }
  | _ => .ok b

/-- `set(path, value)`: split the dotted path and dispatch. -/
def set (b : HomeManagerBuilder) (path : String) (value : NixVal) :
    Except String HomeManagerBuilder :=
  setParts b (jsSplitDot path) value

/-- `addModule(modulePath)`. -/
def addModule (b : HomeManagerBuilder) (modulePath : String) : HomeManagerBuilder :=
  { b with modules := b.modules ++ [modulePath] }

/-- The two regex replacements applied to each program/service entry:
`.replace(/^{\n/, "").replace(/\n    }$/, "")` — strip one leading
open-brace line and one trailing four-space-indented closing brace. -/
def stripBraces (s : String) : String :=
  let s1 := if List.isPrefixOf "\x7b\n".data s.data then String.mk (s.data.drop 2) else s
  if List.isSuffixOf "\n    \x7d".data s1.data then
    String.mk (s1.data.take (s1.data.length - 6)) else s1

/-- The lines pushed by `toNix()` before the program/service/extra
sections: username always, home directory only when truthy, state
version always, the package list only when non-empty. -/
def basicParts (b : HomeManagerBuilder) : List String :=
  ["    home.username = \"" ++ b.username ++ "\";"]
  ++ (match b.homeDirectory with
      | some d => if d.data.isEmpty then [] else
          ["    home.homeDirectory = \"" ++ d ++ "\";"]
      | none => [])
  ++ ["    home.stateVersion = \"" ++ b.stateVersion ++ "\";"]
  ++ (if b.packages.isEmpty then [] else
      ["    home.packages = with pkgs; [ "
        ++ jsJoin " " (b.packages.map fun p => "pkgs." ++ p) ++ " ];"])

/-- One pushed entry `    programs.<name> = {\n<stripped>\n    };`
(also used for `services.<name>`). -/
def entryPart (section_ : String) (name : String) (config : NixVal) : String :=
  section_ ++ "." ++ name ++ " = \x7b\n" ++ stripBraces (toNixValue config 2) ++ "\n    \x7d;"

/-- The full list of strings pushed into `parts` by `toNix()`. -/
def toNixParts (b : HomeManagerBuilder) : List String :=
  basicParts b
  ++ (b.programs.map fun kv => entryPart "    programs" kv.1 kv.2)
  ++ (b.services.map fun kv => entryPart "    services" kv.1 kv.2)
  ++ (b.homeConfig.map fun kv =>
      "    home." ++ kv.1 ++ " = " ++ toNixValue kv.2 1 ++ ";")

/-- `toNix()`: `parts.join("\n")`. -/
def toNix (b : HomeManagerBuilder) : String :=
  jsJoin "\n" (toNixParts b)

end HomeManagerBuilder

/-- `validatePythonPackages(names)` from `src/nixpkgs/python.ts`:
`names.filter(name => !PythonPackages.has(name))`.  The allow-list set is
loaded from a bundled data file whose contents are irrelevant to the
claims, so it is passed in as the membership test `allowed`. -/
def validatePythonPackages (allowed : String → Bool) (names : List String) : List String :=
  names.filter fun name => !allowed name

/-- The mutable state of a `DevShellBuilder`. -/
structure DevShellBuilder where
  name : String
  system : String := "x86_64-linux"
  packages : List String := []
  pythonPackages : List String := []

namespace DevShellBuilder

/-- `new DevShellBuilder(name)`. -/
def init (name : String) : DevShellBuilder := { name := name }

/-- `withPackages(pkgs)` (`this.packages.push(...pkgs)`). -/
def withPackages (b : DevShellBuilder) (pkgs : List String) : DevShellBuilder :=
  { b with packages := b.packages ++ pkgs }

/-- `withPythonPackages(pkgs)`: validate against the allow-list; throw
listing every invalid name before appending anything, else append all. -/
def withPythonPackages (allowed : String → Bool) (b : DevShellBuilder)
    (pkgs : List String) : Except String DevShellBuilder :=
  let invalid := validatePythonPackages allowed pkgs
  if invalid.isEmpty then .ok { b with pythonPackages := b.pythonPackages ++ pkgs }
  else .error ("Invalid Python packages: " ++ jsJoin ", " invalid)

/-- `withSystem(system)`. -/
def withSystem (b : DevShellBuilder) (system : String) : DevShellBuilder :=
  { b with system := system }

/-- `this.packages.map(p => `pkgs.${p}`).join(" ")`. -/
def pkgsList (b : DevShellBuilder) : String :=
  jsJoin " " (b.packages.map fun p => "pkgs." ++ p)

/-- `this.pythonPackages.map(p => `pkgs.python3Packages.${p}`).join(" ")`. -/
def pyList (b : DevShellBuilder) : String :=
  jsJoin " " (b.pythonPackages.map fun p => "pkgs.python3Packages." ++ p)

/-- `DevShellBuilder.toNix()`. -/
def toNix (b : DevShellBuilder) : String :=
  "      " ++ b.name ++ " = pkgs.mkShell \x7b\n        buildInputs = [ "
    ++ b.pkgsList ++ " " ++ b.pyList ++ " ];\n      \x7d;"

end DevShellBuilder

/-- The mutable state of a `FlakeBuilder`. -/
structure FlakeBuilder where
  inputs : List (String × String) := []
  devShells : List DevShellBuilder := []
  homeConfigurations : List HomeManagerBuilder := []
  description : String := ""

namespace FlakeBuilder

/-- `new FlakeBuilder()`. -/
def init : FlakeBuilder := {}

/-- `withInput(name, url)` (`this.inputs[name] = url`). -/
def withInput (b : FlakeBuilder) (name url : String) : FlakeBuilder :=
  { b with inputs := alistSet b.inputs name url }

/-- `withDescription(desc)`. -/
def withDescription (b : FlakeBuilder) (desc : String) : FlakeBuilder :=
  { b with description := desc }

/-- `addDevShellBuilder(builder)`. -/
def addDevShellBuilder (b : FlakeBuilder) (builder : DevShellBuilder) : FlakeBuilder :=
  { b with devShells := b.devShells ++ [builder] }

/-- `addHomeConfigurationBuilder(builder)`. -/
def addHomeConfigurationBuilder (b : FlakeBuilder) (builder : HomeManagerBuilder) :
    FlakeBuilder :=
  { b with homeConfigurations := b.homeConfigurations ++ [builder] }

/-- The `inputLines` local of `build()`. -/
def inputLines (b : FlakeBuilder) : String :=
  jsJoin "\n" (b.inputs.map fun nu => "    " ++ nu.1 ++ ".url = \"" ++ nu.2 ++ "\";")

/-- The `shells` local of `build()`. -/
def shellsText (b : FlakeBuilder) : String :=
  jsJoin "\n" (b.devShells.map DevShellBuilder.toNix)

/-- One entry of the `homeConfigs` local of `build()`. -/
def homeConfigBlock (hm : HomeManagerBuilder) : String :=
  let modulesList :=
    if hm.modules.isEmpty then ""
    else jsJoin "\n" (hm.modules.map fun m => "        " ++ m) ++ "\n"
  "      " ++ hm.username ++ " = home-manager.lib.homeManagerConfiguration \x7b\n"
    ++ "        pkgs = nixpkgs.legacyPackages.x86_64-linux;\n"
    ++ "        modules = [\n" ++ modulesList ++ "          \x7b\n"
    ++ hm.toNix ++ "\n          \x7d\n        ];\n      \x7d;"

/-- The `homeConfigs` local of `build()`. -/
def homeConfigsText (b : FlakeBuilder) : String :=
  jsJoin "\n" (b.homeConfigurations.map homeConfigBlock)

/-- The `outputsSection` local of `build()`: four-way branch on which of
the two collections is non-empty. -/
def outputsSection (b : FlakeBuilder) : String :=
  if !b.devShells.isEmpty && !b.homeConfigurations.isEmpty then
    "  outputs = \x7b self, nixpkgs, home-manager \x7d: let\n"
      ++ "    pkgs = import nixpkgs \x7b system = \"x86_64-linux\"; \x7d;\n  in \x7b\n"
      ++ "    devShells.x86_64-linux = \x7b\n" ++ b.shellsText ++ "\n    \x7d;\n\n"
      ++ "    homeConfigurations = \x7b\n" ++ b.homeConfigsText ++ "\n    \x7d;\n  \x7d;"
  else if !b.devShells.isEmpty then
    "  outputs = \x7b self, nixpkgs \x7d: let\n"
      ++ "    pkgs = import nixpkgs \x7b system = \"x86_64-linux\"; \x7d;\n  in \x7b\n"
      ++ "    devShells.x86_64-linux = \x7b\n" ++ b.shellsText ++ "\n    \x7d;\n  \x7d;"
  else if !b.homeConfigurations.isEmpty then
    "  outputs = \x7b self, nixpkgs, home-manager \x7d:\n  \x7b\n"
      ++ "    homeConfigurations = \x7b\n" ++ b.homeConfigsText ++ "\n    \x7d;\n  \x7d;"
  else
    "  outputs = \x7b self, nixpkgs \x7d: \x7b\x7d;"

/-- `build()`: the assembled document text. -/
def build (b : FlakeBuilder) : String :=
  "\x7b\n  description = \"" ++ b.description ++ "\";\n  inputs = \x7b\n"
    ++ b.inputLines ++ "\n  \x7d;\n\n" ++ b.outputsSection ++ "\n\x7d"

/-- `build()` as a state-passing method: the source body only reads
fields (every occurrence of `this` is a read), so the embedding returns
the receiver unchanged next to the rendered text. -/
def buildM (b : FlakeBuilder) : String × FlakeBuilder :=
  (b.build, b)

end FlakeBuilder

/-! ## General lemmas about the embedding's primitives -/

/-- Reading a dotted path: follow `attrs` entries, returning `none` when
a segment is missing or a non-object stands in the way.  This is the
observable a caller has on the nested maps (property reads chained
through plain objects). -/
def getPath : List (String × NixVal) → List String → Option NixVal
  | _, [] => none
  | m, [k] => alistGet m k
  | m, k :: k2 :: rest =>
    match alistGet m k with
    | some (.attrs a) => getPath a (k2 :: rest)
    | _ => none

/-- Primitive (non-object, non-array) serializer inputs. -/
def isPrimVal : NixVal → Bool
  | .str _ => true
  | .num _ => true
  | .bool _ => true
  | .null => true
  | .list _ => false
  | .attrs _ => false

/-- `pat` begins `s` (checked on the underlying characters). -/
def strStarts (pat s : String) : Bool := List.isPrefixOf pat.data s.data

/-- Prepend `pre` to the first line of a non-empty block of lines. -/
def prependFirst (pre : String) : List String → List String
  | [] => [pre]
  | l :: ls => (pre ++ l) :: ls

/-- Append `suf` to the last line of a non-empty block of lines. -/
def appendLast (suf : String) : List String → List String
  | [] => [suf]
  | [l] => [l ++ suf]
  | l :: l2 :: ls => l :: appendLast suf (l2 :: ls)

mutual

/-- Written from the spec's words (§4.1), independently of the source:
the serialization of a value as a list of output lines.  A primitive is
one token on one line; a non-empty list is one opening bracket, each
element on its own line indented one level deeper and produced by
recursing one level deeper, then a closing bracket at the current level;
a non-empty mapping is one opening brace, one `key = value;` line per
key in insertion order recursing one level deeper, then a closing brace
at the current level. -/
def specLines : NixVal → Nat → List String
  | .str s, _ => ["\"" ++ s ++ "\""]
  | .num n, _ => [intRepr n]
  | .bool b, _ => [if b then "true" else "false"]
  | .list [], _ => ["[]"]
  | .list (x :: xs), n => "[" :: (specElemLines (x :: xs) n ++ [indentStr n ++ "]"])
  | .attrs [], _ => ["\x7b\x7d"]
  | .attrs (kv :: kvs), n =>
    "\x7b" :: (specFieldLines (kv :: kvs) n ++ [indentStr n ++ "\x7d"])
  | .null, _ => ["null"]

/-- The element lines of a spec-side list serialization: each element's
block, its first line carrying the one-level-deeper indentation. -/
def specElemLines : List NixVal → Nat → List String
  | [], _ => []
  | v :: vs, n =>
    prependFirst (indentStr (n + 1)) (specLines v (n + 1)) ++ specElemLines vs n

/-- The `key = value;` lines of a spec-side mapping serialization. -/
def specFieldLines : List (String × NixVal) → Nat → List String
  | [], _ => []
  | (k, v) :: kvs, n =>
    prependFirst (indentStr (n + 1) ++ k ++ " = ")
        (appendLast ";" (specLines v (n + 1)))
      ++ specFieldLines kvs n

end

/-- Written from the spec's words: `serialize(value, indentLevel)` is the
line list joined by newlines. -/
def specSerialize (v : NixVal) (n : Nat) : String := jsJoin "\n" (specLines v n)

/-- Split a character list into its maximal nonempty space-free words
(`acc` holds the reversed current word). -/
def splitWordsAux : List Char → List Char → List (List Char)
  | [], acc => if acc.isEmpty then [] else [acc.reverse]
  | c :: cs, acc =>
    if c = ' ' then
      if acc.isEmpty then splitWordsAux cs []
      else acc.reverse :: splitWordsAux cs []
    else splitWordsAux cs (c :: acc)

/-- The space-separated tokens of a string. -/
def wordsOf (s : String) : List (List Char) := splitWordsAux s.data []

/-- Character-level join of words with single spaces. -/
def joinChars : List (List Char) → List Char
  | [] => []
  | [w] => w
  | w :: w2 :: ws => w ++ ' ' :: joinChars (w2 :: ws)

/-- One recorded package-append call on a `DevShellBuilder`. -/
inductive PkgCall where
  | base (pkgs : List String)
  | python (pkgs : List String)

/-- Run a sequence of append calls left to right; a thrown validation
error aborts the remainder of the sequence. -/
def applyPkgCalls (allowed : String → Bool) (b : DevShellBuilder) :
    List PkgCall → Except String DevShellBuilder
  | [] => .ok b
  | .base ps :: rest => applyPkgCalls allowed (b.withPackages ps) rest
  | .python ps :: rest =>
    match DevShellBuilder.withPythonPackages allowed b ps with
    | .ok b2 => applyPkgCalls allowed b2 rest
    | .error e => .error e

/-- The base packages appended by a call sequence, in order. -/
def basePkgsOf : List PkgCall → List String
  | [] => []
  | .base ps :: rest => ps ++ basePkgsOf rest
  | .python _ :: rest => basePkgsOf rest

/-- The python packages appended by a call sequence, in order. -/
def pyPkgsOf : List PkgCall → List String
  | [] => []
  | .base _ :: rest => pyPkgsOf rest
  | .python ps :: rest => ps ++ pyPkgsOf rest

/-- Run a sequence of `withInput` calls left to right. -/
def applyInputs (b : FlakeBuilder) : List (String × String) → FlakeBuilder
  | [] => b
  | (n, u) :: rest => applyInputs (b.withInput n u) rest

/-- The most recently supplied locator for `key` in a call sequence. -/
def lastUrl : List (String × String) → String → Option String
  | [], _ => none
  | (n, u) :: rest, key =>
    match lastUrl rest key with
    | some r => some r
    | none => if n = key then some u else none

/-- The distinct names of a list in order of first occurrence. -/
def firstRegistered (names : List String) : List String :=
  names.foldl (fun acc n => if n ∈ acc then acc else acc ++ [n]) []

/-- Every strictly-intermediate position along `p` in `m` is either
absent or holds a mapping (the precondition under which the dotted-path
setter is total). -/
def intermediatesOk (m : List (String × NixVal)) (p : List String) : Prop :=
  ∀ i, i + 1 < p.length →
    getPath m (p.take (i + 1)) = none ∨
    ∃ a, getPath m (p.take (i + 1)) = some (.attrs a)


theorem alistGet_set_self {α : Type} (m : List (String × α)) (k : String) (v : α) :
    alistGet (alistSet m k v) k = some v := by
  induction m with
  | nil => simp [alistGet, alistSet]
  | cons kv rest ih =>
    by_cases h : kv.1 = k <;> simp [alistGet, alistSet, h, ih]

theorem alistGet_set_ne {α : Type} (m : List (String × α)) (k k' : String) (v : α)
    (h : k ≠ k') : alistGet (alistSet m k v) k' = alistGet m k' := by
  induction m with
  | nil => simp [alistGet, alistSet, h]
  | cons kv rest ih =>
    by_cases hk : kv.1 = k
    · simp [alistGet, alistSet, hk, h]
    · by_cases hk' : kv.1 = k' <;> simp [alistGet, alistSet, hk, hk', Ne.symm h, ih]

theorem alistSet_keys {α : Type} (m : List (String × α)) (k : String) (v : α) :
    (alistSet m k v).map Prod.fst =
      if k ∈ m.map Prod.fst then m.map Prod.fst else m.map Prod.fst ++ [k] := by
  induction m with
  | nil => simp [alistSet]
  | cons kv rest ih =>
    by_cases h : kv.1 = k
    · simp [alistSet, h]
    · simp only [alistSet, if_neg h, List.map_cons, List.mem_cons]
      rw [ih]
      have : ¬ k = kv.1 := fun hh => h hh.symm
      by_cases hmem : k ∈ rest.map Prod.fst <;> simp [this, hmem]

theorem natToDigits_ne_nil (n : Nat) (acc : List Char) : natToDigits n acc ≠ [] := by
  induction n using Nat.strong_induction_on generalizing acc with
  | _ n ih =>
    rw [natToDigits]
    split
    · simp
    · exact ih (n / 10) (Nat.div_lt_self (by omega) (by omega)) _

theorem mem_natToDigits (n : Nat) (acc : List Char) (c : Char)
    (h : c ∈ natToDigits n acc) :
    (∃ m, m < 10 ∧ c = Nat.digitChar m) ∨ c ∈ acc := by
  induction n using Nat.strong_induction_on generalizing acc with
  | _ n ih =>
    rw [natToDigits] at h
    split at h
    · rcases List.mem_cons.mp h with h1 | h1
      · exact Or.inl ⟨n, by omega, h1⟩
      · exact Or.inr h1
    · rcases ih (n / 10) (Nat.div_lt_self (by omega) (by omega)) _ h with h1 | h1
      · exact Or.inl h1
      · rcases List.mem_cons.mp h1 with h2 | h2
        · exact Or.inl ⟨n % 10, Nat.mod_lt _ (by omega), h2⟩
        · exact Or.inr h2

theorem mem_intRepr (n : Int) (c : Char) (h : c ∈ (intRepr n).data) :
    c = '-' ∨ ∃ m, m < 10 ∧ c = Nat.digitChar m := by
  cases n with
  | ofNat m =>
    rcases mem_natToDigits m [] c h with h1 | h1
    · exact Or.inr h1
    · cases h1
  | negSucc m =>
    rcases List.mem_cons.mp h with h1 | h1
    · exact Or.inl h1
    · rcases mem_natToDigits (m + 1) [] c h1 with h2 | h2
      · exact Or.inr h2
      · cases h2

theorem strip_eq_of_ends (s : String)
    (h1 : s.data.head? ≠ some '\x7b')
    (h2 : s.data.getLast? ≠ some '\x7d') :
    HomeManagerBuilder.stripBraces s = s := by
  unfold HomeManagerBuilder.stripBraces
  have hpre : List.isPrefixOf "\x7b\n".data s.data = false := by
    cases hd : s.data with
    | nil => rfl
    | cons c rest =>
      have : c ≠ '\x7b' := by
        intro h; apply h1; rw [hd, h]; rfl
      simp [List.isPrefixOf]
      intro h
      exact absurd h.symm this
  have hsuf : List.isSuffixOf "\n    \x7d".data s.data = false := by
    unfold List.isSuffixOf
    cases hd : s.data.reverse with
    | nil => rfl
    | cons c rest =>
      have : c ≠ '\x7d' := by
        intro h
        apply h2
        rw [← List.head?_reverse, hd, h]
        rfl
      simp [List.isPrefixOf]
      intro h
      exact absurd h.symm this
  simp [hpre, hsuf]

theorem digitChar_ne_delims (m : Nat) (hm : m < 10) :
    Nat.digitChar m ≠ '\x7b' ∧ Nat.digitChar m ≠ '\x7d' := by
  interval_cases m <;> exact ⟨by decide, by decide⟩

theorem intRepr_head_ne (n : Int) : (intRepr n).data.head? ≠ some '\x7b' := by
  cases hd : (intRepr n).data with
  | nil => simp
  | cons c rest =>
    have hc : c ∈ (intRepr n).data := by rw [hd]; exact List.mem_cons_self _ _
    rcases mem_intRepr n c hc with h1 | ⟨m, hm, h1⟩
    · simp [h1]
    · simp [h1, (digitChar_ne_delims m hm).1]

theorem intRepr_last_ne (n : Int) : (intRepr n).data.getLast? ≠ some '\x7d' := by
  cases hd : (intRepr n).data.reverse with
  | nil => simp [← List.head?_reverse, hd]
  | cons c rest =>
    have hc : c ∈ (intRepr n).data := by
      rw [← List.mem_reverse, hd]; exact List.mem_cons_self _ _
    rw [← List.head?_reverse, hd]
    rcases mem_intRepr n c hc with h1 | ⟨m, hm, h1⟩
    · simp [h1]
    · simp [h1, (digitChar_ne_delims m hm).2]

theorem stripBraces_prim (v : NixVal) (h : v = .attrs [] ∨ isPrimVal v = true) :
    HomeManagerBuilder.stripBraces (toNixValue v 2) = toNixValue v 2 := by
  cases v with
  | str s =>
    apply strip_eq_of_ends
    · show (("\"" ++ s ++ "\"").data.head?) ≠ some '\x7b'
      rw [String.data_append, String.data_append]
      simp
    · show (("\"" ++ s ++ "\"").data.getLast?) ≠ some '\x7d'
      rw [String.data_append, String.data_append]
      have : ("\"".data ++ s.data) ++ "\"".data = "\"".data ++ s.data ++ "\"".data := by
        simp
      rw [← this, List.getLast?_concat]
      simp
  | num n => exact strip_eq_of_ends _ (intRepr_head_ne n) (intRepr_last_ne n)
  | bool b => cases b <;> decide
  | list xs => rcases h with h | h <;> simp [isPrimVal] at h
  | attrs kvs =>
    rcases h with h | h
    · rw [h]; decide
    · simp [isPrimVal] at h
  | null => decide

/-- C10: when a program/service entry's configured value is an empty
mapping or a non-mapping primitive, the serializer emits no brace lines,
the two stripping patterns do not match, and the pushed block wraps the
raw serialized token between the entry's own braces; in particular
`enableProgram("x", {})` renders `    programs.x = {` / `{}` / `    };`. -/
theorem claim_c10 (name : String) (v : NixVal)
    (h : v = .attrs [] ∨ isPrimVal v = true) :
    HomeManagerBuilder.stripBraces (toNixValue v 2) = toNixValue v 2 ∧
    HomeManagerBuilder.entryPart "    programs" name v =
      "    programs" ++ "." ++ name ++ " = \x7b\n" ++ toNixValue v 2 ++ "\n    \x7d;" ∧
    HomeManagerBuilder.toNixParts
        ((HomeManagerBuilder.init "u").enableProgram "x" (.attrs [])) =
      ["    home.username = \"u\";", "    home.stateVersion = \"24.05\";",
       "    programs.x = \x7b\n\x7b\x7d\n    \x7d;"] := by
  refine ⟨stripBraces_prim v h, ?_, by decide⟩
  unfold HomeManagerBuilder.entryPart
  rw [stripBraces_prim v h]

/-- C10 witness: the theorem applied at the empty-mapping example. -/
theorem claim_c10_witness :
    HomeManagerBuilder.entryPart "    programs" "x" (.attrs []) =
      "    programs" ++ "." ++ "x" ++ " = \x7b\n" ++ toNixValue (.attrs []) 2 ++ "\n    \x7d;" :=
  (claim_c10 "x" (.attrs []) (Or.inl rfl)).2.1

/-- C4: `FlakeBuilder.build` renders from current state without mutating
it (every occurrence of `this` in the source body is a field read), so
two renders with no mutation in between return identical strings. -/
theorem claim_c4 (b : FlakeBuilder) :
    (FlakeBuilder.buildM b).2 = b ∧
    (FlakeBuilder.buildM (FlakeBuilder.buildM b).2).1 = (FlakeBuilder.buildM b).1 :=
  ⟨rfl, rfl⟩

/-- C3: `withPythonPackages` is all-or-nothing per call: if every name
passes the allow-list the whole batch is appended in order and nothing
else changes; if any name fails, the call throws an error whose message
enumerates exactly the invalid names of this call (in order) and, the
error being raised before any mutation, the builder state is unchanged. -/
theorem claim_c3 (allowed : String → Bool) (b : DevShellBuilder) (pkgs : List String) :
    ((∀ p ∈ pkgs, allowed p = true) →
      DevShellBuilder.withPythonPackages allowed b pkgs =
        .ok { b with pythonPackages := b.pythonPackages ++ pkgs }) ∧
    ((∃ p ∈ pkgs, allowed p = false) →
      DevShellBuilder.withPythonPackages allowed b pkgs =
        .error ("Invalid Python packages: " ++
          jsJoin ", " (validatePythonPackages allowed pkgs))) := by
  constructor
  · intro h
    have hempty : validatePythonPackages allowed pkgs = [] := by
      rw [validatePythonPackages, List.filter_eq_nil_iff]
      intro p hp
      simp [h p hp]
    simp [DevShellBuilder.withPythonPackages, hempty]
  · intro h
    obtain ⟨p, hp, hfail⟩ := h
    have hne : validatePythonPackages allowed pkgs ≠ [] := by
      rw [validatePythonPackages, Ne, List.filter_eq_nil_iff]
      intro hall
      exact hall p hp (by simp [hfail])
    simp only [DevShellBuilder.withPythonPackages]
    rw [if_neg (by simpa [List.isEmpty_iff] using hne)]

/-- C3 witness: one valid and one invalid name — the call fails listing
exactly the invalid one. -/
theorem claim_c3_witness :
    DevShellBuilder.withPythonPackages (fun n => n == "numpy")
        (DevShellBuilder.init "shell") ["numpy", "nopkg"] =
      .error ("Invalid Python packages: " ++
        jsJoin ", " (validatePythonPackages (fun n => n == "numpy") ["numpy", "nopkg"])) :=
  (claim_c3 (fun n => n == "numpy") (DevShellBuilder.init "shell") ["numpy", "nopkg"]).2
    ⟨"nopkg", by decide, by decide⟩

/-- C6: the outputs declaration depends on which collections are
non-empty — environments only declare `{ self, nixpkgs }`, any profile
adds `home-manager`, and the empty document renders (totally) with the
minimal `outputs = { self, nixpkgs }: {};` form inside the fixed
document scaffold. -/
theorem claim_c6 (b : FlakeBuilder) :
    (b.devShells = [] → b.homeConfigurations = [] →
      b.outputsSection = "  outputs = \x7b self, nixpkgs \x7d: \x7b\x7d;") ∧
    (b.devShells ≠ [] → b.homeConfigurations = [] →
      b.outputsSection =
        "  outputs = \x7b self, nixpkgs \x7d: let\n"
          ++ "    pkgs = import nixpkgs \x7b system = \"x86_64-linux\"; \x7d;\n  in \x7b\n"
          ++ "    devShells.x86_64-linux = \x7b\n" ++ b.shellsText ++ "\n    \x7d;\n  \x7d;") ∧
    (b.devShells ≠ [] → b.homeConfigurations ≠ [] →
      b.outputsSection =
        "  outputs = \x7b self, nixpkgs, home-manager \x7d: let\n"
          ++ "    pkgs = import nixpkgs \x7b system = \"x86_64-linux\"; \x7d;\n  in \x7b\n"
          ++ "    devShells.x86_64-linux = \x7b\n" ++ b.shellsText ++ "\n    \x7d;\n\n"
          ++ "    homeConfigurations = \x7b\n" ++ b.homeConfigsText ++ "\n    \x7d;\n  \x7d;") ∧
    (b.devShells = [] → b.homeConfigurations ≠ [] →
      b.outputsSection =
        "  outputs = \x7b self, nixpkgs, home-manager \x7d:\n  \x7b\n"
          ++ "    homeConfigurations = \x7b\n" ++ b.homeConfigsText ++ "\n    \x7d;\n  \x7d;") ∧
    b.build = "\x7b\n  description = \"" ++ b.description ++ "\";\n  inputs = \x7b\n"
      ++ b.inputLines ++ "\n  \x7d;\n\n" ++ b.outputsSection ++ "\n\x7d" := by
  refine ⟨?_, ?_, ?_, ?_, rfl⟩ <;>
    intro h1 h2 <;>
    simp_all [FlakeBuilder.outputsSection, List.isEmpty_iff]

/-- C6 witness: the empty document takes the minimal-empty branch. -/
theorem claim_c6_witness :
    FlakeBuilder.init.outputsSection = "  outputs = \x7b self, nixpkgs \x7d: \x7b\x7d;" :=
  (claim_c6 FlakeBuilder.init).1 rfl rfl

theorem applyInputs_get (calls : List (String × String)) (b : FlakeBuilder) (k : String) :
    alistGet (applyInputs b calls).inputs k =
      match lastUrl calls k with
      | some u => some u
      | none => alistGet b.inputs k := by
  induction calls generalizing b with
  | nil => simp [applyInputs, lastUrl]
  | cons nu rest ih =>
    obtain ⟨n, u⟩ := nu
    rw [applyInputs, ih]
    cases hrest : lastUrl rest k with
    | some r => simp [lastUrl, hrest]
    | none =>
      simp only [lastUrl, hrest]
      by_cases hn : n = k
      · subst hn
        simp [FlakeBuilder.withInput, alistGet_set_self]
      · simp [FlakeBuilder.withInput, alistGet_set_ne _ _ _ _ hn, hn]

theorem applyInputs_keys (calls : List (String × String)) (b : FlakeBuilder) :
    (applyInputs b calls).inputs.map Prod.fst =
      calls.foldl (fun acc nu => if nu.1 ∈ acc then acc else acc ++ [nu.1])
        (b.inputs.map Prod.fst) := by
  induction calls generalizing b with
  | nil => simp [applyInputs]
  | cons nu rest ih =>
    obtain ⟨n, u⟩ := nu
    rw [applyInputs, ih]
    simp only [List.foldl_cons]
    congr 1
    exact alistSet_keys b.inputs n u

theorem foldl_firstReg_nodup {α : Type} (key : α → String) (xs : List α)
    (acc : List String) (hacc : acc.Nodup) :
    (xs.foldl (fun acc x => if key x ∈ acc then acc else acc ++ [key x]) acc).Nodup := by
  induction xs generalizing acc with
  | nil => exact hacc
  | cons n rest ih =>
    simp only [List.foldl_cons]
    by_cases h : key n ∈ acc
    · rw [if_pos h]; exact ih acc hacc
    · rw [if_neg h]
      refine ih _ ?_
      simp [List.nodup_append, hacc, h]

/-- C8: the rendered document carries one `name.url = "url";` line per
distinct input name, holding the most recently supplied locator, in
first-registration order.  One line per pair is definitional in
`inputLines`; this theorem adds that after any call sequence the stored
pair list has exactly the distinct names (no duplicates) in
first-registration order and last-call locators, and that `build`
embeds `inputLines` in the document's inputs block. -/
theorem claim_c8 (calls : List (String × String)) :
    ((applyInputs FlakeBuilder.init calls).inputs.map Prod.fst =
      firstRegistered (calls.map Prod.fst)) ∧
    ((applyInputs FlakeBuilder.init calls).inputs.map Prod.fst).Nodup ∧
    (∀ k, alistGet (applyInputs FlakeBuilder.init calls).inputs k = lastUrl calls k) ∧
    (∀ b : FlakeBuilder,
      b.inputLines =
        jsJoin "\n" (b.inputs.map fun nu => "    " ++ nu.1 ++ ".url = \"" ++ nu.2 ++ "\";") ∧
      b.build = "\x7b\n  description = \"" ++ b.description ++ "\";\n  inputs = \x7b\n"
        ++ b.inputLines ++ "\n  \x7d;\n\n" ++ b.outputsSection ++ "\n\x7d") := by
  refine ⟨?_, ?_, ?_, fun b => ⟨rfl, rfl⟩⟩
  · rw [applyInputs_keys]
    show _ = (calls.map Prod.fst).foldl _ _
    rw [List.foldl_map]
    rfl
  · rw [applyInputs_keys]
    exact foldl_firstReg_nodup Prod.fst calls _ List.nodup_nil
  · intro k
    rw [applyInputs_get]
    cases h : lastUrl calls k <;> simp [FlakeBuilder.init, alistGet]

theorem jsJoin_cons_ne (sep x : String) (xs : List String) (h : xs ≠ []) :
    jsJoin sep (x :: xs) = x ++ sep ++ jsJoin sep xs := by
  cases xs with
  | nil => exact absurd rfl h
  | cons y rest => rfl

theorem jsJoin_append_ne (sep : String) (xs ys : List String)
    (hx : xs ≠ []) (hy : ys ≠ []) :
    jsJoin sep (xs ++ ys) = jsJoin sep xs ++ sep ++ jsJoin sep ys := by
  induction xs with
  | nil => exact absurd rfl hx
  | cons x rest ih =>
    cases rest with
    | nil =>
      cases ys with
      | nil => exact absurd rfl hy
      | cons y rest' => rfl
    | cons x2 rest' =>
      rw [List.cons_append, jsJoin_cons_ne _ _ _ (by simp),
        jsJoin_cons_ne _ _ _ (by simp), ih (by simp)]
      simp [String.append_assoc]

theorem jsJoin_prependFirst (p : String) (ls : List String) (h : ls ≠ []) :
    jsJoin "\n" (prependFirst p ls) = p ++ jsJoin "\n" ls := by
  cases ls with
  | nil => exact absurd rfl h
  | cons l rest =>
    cases rest with
    | nil => rfl
    | cons l2 rest' =>
      show jsJoin "\n" ((p ++ l) :: l2 :: rest') = _
      rw [jsJoin_cons_ne "\n" (p ++ l) (l2 :: rest') (by simp),
        jsJoin_cons_ne "\n" l (l2 :: rest') (by simp)]
      simp [String.append_assoc]

theorem jsJoin_appendLast (suf : String) (ls : List String) (h : ls ≠ []) :
    jsJoin "\n" (appendLast suf ls) = jsJoin "\n" ls ++ suf := by
  induction ls with
  | nil => exact absurd rfl h
  | cons l rest ih =>
    cases rest with
    | nil => rfl
    | cons l2 rest' =>
      show jsJoin "\n" (l :: appendLast suf (l2 :: rest')) = _
      have hne : appendLast suf (l2 :: rest') ≠ [] := by
        cases rest' <;> simp [appendLast]
      rw [jsJoin_cons_ne _ _ _ hne, jsJoin_cons_ne _ _ _ (by simp), ih (by simp)]
      simp [String.append_assoc]

theorem appendLast_ne_nil (suf : String) (ls : List String) : appendLast suf ls ≠ [] := by
  match ls with
  | [] => simp [appendLast]
  | [l] => simp [appendLast]
  | l :: l2 :: rest => simp [appendLast]

theorem specLines_ne_nil (v : NixVal) (n : Nat) : specLines v n ≠ [] := by
  cases v with
  | str s => simp [specLines]
  | num m => simp [specLines]
  | bool b => simp [specLines]
  | list xs => cases xs <;> simp [specLines]
  | attrs kvs => cases kvs <;> simp [specLines]
  | null => simp [specLines]

theorem prependFirst_ne_nil (p : String) (ls : List String) :
    prependFirst p ls ≠ [] := by
  cases ls <;> simp [prependFirst]

theorem specElemLines_ne_nil (vs : List NixVal) (n : Nat) (h : vs ≠ []) :
    specElemLines vs n ≠ [] := by
  cases vs with
  | nil => exact absurd rfl h
  | cons v rest =>
    rw [specElemLines]
    intro hc
    rcases List.append_eq_nil.mp hc with ⟨h1, _⟩
    exact prependFirst_ne_nil _ _ h1

theorem specFieldLines_ne_nil (kvs : List (String × NixVal)) (n : Nat) (h : kvs ≠ []) :
    specFieldLines kvs n ≠ [] := by
  cases kvs with
  | nil => exact absurd rfl h
  | cons kv rest =>
    obtain ⟨k, v⟩ := kv
    rw [specFieldLines]
    intro hc
    rcases List.append_eq_nil.mp hc with ⟨h1, _⟩
    exact prependFirst_ne_nil _ _ h1

theorem serElems_join_eq (vs : List NixVal) (n : Nat) (hvs : vs ≠ [])
    (hmem : ∀ x ∈ vs, toNixValue x (n + 1) = jsJoin "\n" (specLines x (n + 1))) :
    jsJoin "\n" (serElems vs (n + 1)) = jsJoin "\n" (specElemLines vs n) := by
  induction vs with
  | nil => exact absurd rfl hvs
  | cons v rest ih =>
    cases rest with
    | nil =>
      show jsJoin "\n" [indentStr (n + 1) ++ toNixValue v (n + 1)] = _
      rw [specElemLines, specElemLines, List.append_nil,
        jsJoin_prependFirst _ _ (specLines_ne_nil _ _),
        hmem v (List.mem_cons_self _ _)]
      rfl
    | cons v2 rest' =>
      show jsJoin "\n" ((indentStr (n + 1) ++ toNixValue v (n + 1)) ::
        serElems (v2 :: rest') (n + 1)) = _
      have hser : serElems (v2 :: rest') (n + 1) ≠ [] := by simp [serElems]
      rw [jsJoin_cons_ne _ _ _ hser, specElemLines,
        jsJoin_append_ne _ _ _ (prependFirst_ne_nil _ _)
          (specElemLines_ne_nil _ _ (by simp)),
        jsJoin_prependFirst _ _ (specLines_ne_nil _ _),
        hmem v (List.mem_cons_self _ _),
        ih (by simp) (fun x hx => hmem x (List.mem_cons_of_mem _ hx))]

theorem serFields_join_eq (kvs : List (String × NixVal)) (n : Nat) (hkvs : kvs ≠ [])
    (hmem : ∀ kv ∈ kvs, toNixValue kv.2 (n + 1) = jsJoin "\n" (specLines kv.2 (n + 1))) :
    jsJoin "\n" (serFields kvs (n + 1)) = jsJoin "\n" (specFieldLines kvs n) := by
  induction kvs with
  | nil => exact absurd rfl hkvs
  | cons kv rest ih =>
    obtain ⟨k, v⟩ := kv
    have hline : indentStr (n + 1) ++ k ++ " = " ++ toNixValue v (n + 1) ++ ";" =
        jsJoin "\n" (prependFirst (indentStr (n + 1) ++ k ++ " = ")
          (appendLast ";" (specLines v (n + 1)))) := by
      rw [jsJoin_prependFirst _ _ (appendLast_ne_nil _ _),
        jsJoin_appendLast _ _ (specLines_ne_nil _ _),
        ← hmem ⟨k, v⟩ (List.mem_cons_self _ _)]
      simp [String.append_assoc]
    cases rest with
    | nil =>
      show jsJoin "\n" [indentStr (n + 1) ++ k ++ " = " ++ toNixValue v (n + 1) ++ ";"] = _
      rw [specFieldLines, specFieldLines, List.append_nil, ← hline]
      rfl
    | cons kv2 rest' =>
      show jsJoin "\n" ((indentStr (n + 1) ++ k ++ " = " ++ toNixValue v (n + 1) ++ ";") ::
        serFields (kv2 :: rest') (n + 1)) = _
      have hser : serFields (kv2 :: rest') (n + 1) ≠ [] := by
        obtain ⟨k2, v2⟩ := kv2; simp [serFields]
      rw [jsJoin_cons_ne _ _ _ hser, specFieldLines,
        jsJoin_append_ne _ _ _ (prependFirst_ne_nil _ _)
          (specFieldLines_ne_nil _ _ (by simp)),
        hline, ih (by simp) (fun x hx => hmem x (List.mem_cons_of_mem _ hx))]

theorem toNixValue_spec_aux (N : Nat) :
    ∀ (v : NixVal), sizeOf v ≤ N → ∀ n, toNixValue v n = jsJoin "\n" (specLines v n) := by
  induction N with
  | zero =>
    intro v hv
    exact absurd hv (by cases v <;> simp)
  | succ N ih =>
    intro v hv n
    match v with
    | .str s => rfl
    | .num m => rfl
    | .bool b => cases b <;> rfl
    | .null => rfl
    | .list [] => rfl
    | .list (x :: xs) =>
      have hmem : ∀ y ∈ x :: xs, toNixValue y (n + 1) = jsJoin "\n" (specLines y (n + 1)) := by
        intro y hy
        refine ih y ?_ (n + 1)
        have h1 : sizeOf y < sizeOf (x :: xs) := List.sizeOf_lt_of_mem hy
        have h2 : sizeOf (NixVal.list (x :: xs)) = 1 + sizeOf (x :: xs) := by simp
        omega
      show "[\n" ++ jsJoin "\n" (serElems (x :: xs) (n + 1)) ++ "\n" ++ indentStr n ++ "]" = _
      rw [serElems_join_eq (x :: xs) n (by simp) hmem, specLines,
        jsJoin_cons_ne _ _ _ (by
          intro hc
          rcases List.append_eq_nil.mp hc with ⟨h1, _⟩
          exact specElemLines_ne_nil _ _ (by simp) h1),
        jsJoin_append_ne _ _ _ (specElemLines_ne_nil _ _ (by simp)) (by simp)]
      show _ = "[" ++ "\n" ++ (jsJoin "\n" (specElemLines (x :: xs) n) ++ "\n"
        ++ (indentStr n ++ "]"))
      simp [String.append_assoc]
    | .attrs [] => rfl
    | .attrs (kv :: kvs) =>
      have hmem : ∀ y ∈ kv :: kvs, toNixValue y.2 (n + 1) = jsJoin "\n" (specLines y.2 (n + 1)) := by
        intro y hy
        refine ih y.2 ?_ (n + 1)
        have h1 : sizeOf y < sizeOf (kv :: kvs) := List.sizeOf_lt_of_mem hy
        have h2 : sizeOf (NixVal.attrs (kv :: kvs)) = 1 + sizeOf (kv :: kvs) := by simp
        have h3 : sizeOf y.2 < sizeOf y := by
          obtain ⟨a, c⟩ := y
          simp
        omega
      show "\x7b\n" ++ jsJoin "\n" (serFields (kv :: kvs) (n + 1)) ++ "\n"
          ++ indentStr n ++ "\x7d" = _
      rw [serFields_join_eq (kv :: kvs) n (by simp) hmem, specLines,
        jsJoin_cons_ne _ _ _ (by
          intro hc
          rcases List.append_eq_nil.mp hc with ⟨h1, _⟩
          exact specFieldLines_ne_nil _ _ (by simp) h1),
        jsJoin_append_ne _ _ _ (specFieldLines_ne_nil _ _ (by simp)) (by simp)]
      show _ = "\x7b" ++ "\n" ++ (jsJoin "\n" (specFieldLines (kv :: kvs) n) ++ "\n"
        ++ (indentStr n ++ "\x7d"))
      simp [String.append_assoc]

/-- C1: the source serializer agrees, for every structured value and
indent level, with the serializer written from the spec's words: exact
quoted strings, decimal numbers, `true`/`false`, `[]`/`{}` for empty
collections, per-line recursion one indent level deeper with the
two-space unit, closing delimiter at the current level, `null` for
null/undefined, and (being a total Lean function over `NixVal`) no error
conditions. -/
theorem claim_c1 (v : NixVal) (n : Nat) : toNixValue v n = specSerialize v n :=
  toNixValue_spec_aux (sizeOf v) v le_rfl n

theorem getPath_nil_map (q : List String) : getPath [] q = none := by
  match q with
  | [] => rfl
  | [k] => rfl
  | k :: k2 :: rest => rfl

theorem getPath_cons (m : List (String × NixVal)) (a : List (String × NixVal))
    (k : String) (q : List String) (hq : q ≠ [])
    (h : alistGet m k = some (.attrs a)) : getPath m (k :: q) = getPath a q := by
  match q with
  | [] => exact absurd rfl hq
  | k2 :: rest => simp [getPath, h]

theorem setNV_chain_none (q : List String) (v : NixVal)
    (a2 : List (String × NixVal)) (h : setNestedValue [] q v = .ok a2)
    (j : Nat) (hj : j < q.length) (k' : String) (hk : q[j]? ≠ some k') :
    getPath a2 (q.take j ++ [k']) = none := by
  induction q generalizing a2 j with
  | nil => simp at hj
  | cons k1 rest ih =>
    cases rest with
    | nil =>
      have ha2 : a2 = [(k1, v)] := by
        simpa [setNestedValue, alistSet] using h.symm
      have hj0 : j = 0 := by simp at hj; omega
      subst hj0 ha2
      have hk1 : k1 ≠ k' := by simpa using hk
      simp [getPath, alistGet, hk1]
    | cons k2 rest' =>
      rw [setNestedValue] at h
      simp only [alistGet] at h
      cases hrec : setNestedValue [] (k2 :: rest') v with
      | error e => rw [hrec] at h; exact absurd h (by simp [Except.map])
      | ok a2' =>
        rw [hrec] at h
        have ha2 : a2 = [(k1, NixVal.attrs a2')] := by
          simpa [Except.map, alistSet] using h.symm
        subst ha2
        cases j with
        | zero =>
          have hk1 : k1 ≠ k' := by simpa using hk
          simp [getPath, alistGet, hk1]
        | succ j' =>
          rw [List.take_succ_cons, List.cons_append,
            getPath_cons _ a2' k1 _ (by simp) (by simp [alistGet])]
          exact ih a2' hrec j' (by simpa using hj) (by simpa using hk)

theorem getPath_cons_none (m : List (String × NixVal)) (k : String) (q : List String)
    (hq : q ≠ []) (h : ∀ a, alistGet m k ≠ some (.attrs a)) :
    getPath m (k :: q) = none := by
  match q with
  | [] => exact absurd rfl hq
  | k2 :: rest =>
    cases hget : alistGet m k with
    | none => simp [getPath, hget]
    | some w =>
      cases w with
      | attrs a => exact absurd hget (h a)
      | str s => simp [getPath, hget]
      | num n => simp [getPath, hget]
      | bool b => simp [getPath, hget]
      | list xs => simp [getPath, hget]
      | null => simp [getPath, hget]

theorem setNV_frame (p : List String) (m m2 : List (String × NixVal)) (v : NixVal)
    (h : setNestedValue m p v = .ok m2) (i : Nat) (hi : i < p.length)
    (k' : String) (hk : p[i]? ≠ some k') :
    getPath m2 (p.take i ++ [k']) = getPath m (p.take i ++ [k']) := by
  induction p generalizing m m2 i with
  | nil => simp at hi
  | cons k rest ih =>
    cases rest with
    | nil =>
      have hm2 : m2 = alistSet m k v := by
        simpa [setNestedValue] using h.symm
      have hi0 : i = 0 := by simp at hi; omega
      subst hi0 hm2
      have hkk : k ≠ k' := by simpa using hk
      simp [getPath, alistGet_set_ne _ _ _ _ hkk]
    | cons k2 rest' =>
      cases hget : alistGet m k with
      | none =>
        simp only [setNestedValue, hget] at h
        cases hrec : setNestedValue [] (k2 :: rest') v with
        | error e => rw [hrec] at h; exact absurd h (by simp [Except.map])
        | ok a2 =>
          rw [hrec] at h
          have hm2 : m2 = alistSet m k (.attrs a2) := by
            simpa [Except.map] using h.symm
          subst hm2
          cases i with
          | zero =>
            have hkk : k ≠ k' := by simpa using hk
            simp [getPath, alistGet_set_ne _ _ _ _ hkk]
          | succ j =>
            rw [List.take_succ_cons, List.cons_append,
              getPath_cons _ a2 k _ (by simp) (by simp [alistGet_set_self]),
              getPath_cons_none m k _ (by simp) (by simp [hget]),
              setNV_chain_none (k2 :: rest') v a2 hrec j (by simpa using hi) k'
                (by simpa using hk)]
      | some w =>
        cases w with
        | attrs a =>
          simp only [setNestedValue, hget] at h
          cases hrec : setNestedValue a (k2 :: rest') v with
          | error e => rw [hrec] at h; exact absurd h (by simp [Except.map])
          | ok a2 =>
            rw [hrec] at h
            have hm2 : m2 = alistSet m k (.attrs a2) := by
              simpa [Except.map] using h.symm
            subst hm2
            cases i with
            | zero =>
              have hkk : k ≠ k' := by simpa using hk
              simp [getPath, alistGet_set_ne _ _ _ _ hkk]
            | succ j =>
              rw [List.take_succ_cons, List.cons_append,
                getPath_cons _ a2 k _ (by simp) (by simp [alistGet_set_self]),
                getPath_cons m a k _ (by simp) hget]
              exact ih a a2 hrec j (by simpa using hi) (by simpa using hk)
        | list xs =>
          simp only [setNestedValue, hget] at h
          have hm2 : m2 = m := by simpa using h.symm
          subst hm2
          rfl
        | str s =>
          simp only [setNestedValue, hget] at h
          split at h
          · exact absurd h (by simp)
          · cases hrec : setNestedValue [] (k2 :: rest') v with
            | error e => rw [hrec] at h; exact absurd h (by simp [Except.map])
            | ok a2 =>
              rw [hrec] at h
              have hm2 : m2 = alistSet m k (.attrs a2) := by
                simpa [Except.map] using h.symm
              subst hm2
              cases i with
              | zero =>
                have hkk : k ≠ k' := by simpa using hk
                simp [getPath, alistGet_set_ne _ _ _ _ hkk]
              | succ j =>
                rw [List.take_succ_cons, List.cons_append,
                  getPath_cons _ a2 k _ (by simp) (by simp [alistGet_set_self]),
                  getPath_cons_none m k _ (by simp) (by simp [hget]),
                  setNV_chain_none (k2 :: rest') v a2 hrec j (by simpa using hi) k'
                    (by simpa using hk)]
        | num n =>
          simp only [setNestedValue, hget] at h
          split at h
          · exact absurd h (by simp)
          · cases hrec : setNestedValue [] (k2 :: rest') v with
            | error e => rw [hrec] at h; exact absurd h (by simp [Except.map])
            | ok a2 =>
              rw [hrec] at h
              have hm2 : m2 = alistSet m k (.attrs a2) := by
                simpa [Except.map] using h.symm
              subst hm2
              cases i with
              | zero =>
                have hkk : k ≠ k' := by simpa using hk
                simp [getPath, alistGet_set_ne _ _ _ _ hkk]
              | succ j =>
                rw [List.take_succ_cons, List.cons_append,
                  getPath_cons _ a2 k _ (by simp) (by simp [alistGet_set_self]),
                  getPath_cons_none m k _ (by simp) (by simp [hget]),
                  setNV_chain_none (k2 :: rest') v a2 hrec j (by simpa using hi) k'
                    (by simpa using hk)]
        | bool bb =>
          simp only [setNestedValue, hget] at h
          split at h
          · exact absurd h (by simp)
          · cases hrec : setNestedValue [] (k2 :: rest') v with
            | error e => rw [hrec] at h; exact absurd h (by simp [Except.map])
            | ok a2 =>
              rw [hrec] at h
              have hm2 : m2 = alistSet m k (.attrs a2) := by
                simpa [Except.map] using h.symm
              subst hm2
              cases i with
              | zero =>
                have hkk : k ≠ k' := by simpa using hk
                simp [getPath, alistGet_set_ne _ _ _ _ hkk]
              | succ j =>
                rw [List.take_succ_cons, List.cons_append,
                  getPath_cons _ a2 k _ (by simp) (by simp [alistGet_set_self]),
                  getPath_cons_none m k _ (by simp) (by simp [hget]),
                  setNV_chain_none (k2 :: rest') v a2 hrec j (by simpa using hi) k'
                    (by simpa using hk)]
        | null =>
          simp only [setNestedValue, hget] at h
          split at h
          · exact absurd h (by simp)
          · cases hrec : setNestedValue [] (k2 :: rest') v with
            | error e => rw [hrec] at h; exact absurd h (by simp [Except.map])
            | ok a2 =>
              rw [hrec] at h
              have hm2 : m2 = alistSet m k (.attrs a2) := by
                simpa [Except.map] using h.symm
              subst hm2
              cases i with
              | zero =>
                have hkk : k ≠ k' := by simpa using hk
                simp [getPath, alistGet_set_ne _ _ _ _ hkk]
              | succ j =>
                rw [List.take_succ_cons, List.cons_append,
                  getPath_cons _ a2 k _ (by simp) (by simp [alistGet_set_self]),
                  getPath_cons_none m k _ (by simp) (by simp [hget]),
                  setNV_chain_none (k2 :: rest') v a2 hrec j (by simpa using hi) k'
                    (by simpa using hk)]

theorem setNV_ok (p : List String) (m : List (String × NixVal)) (v : NixVal)
    (hp : p ≠ []) (hok : intermediatesOk m p) :
    ∃ m2, setNestedValue m p v = .ok m2 ∧ getPath m2 p = some v := by
  induction p generalizing m with
  | nil => exact absurd rfl hp
  | cons k rest ih =>
    cases rest with
    | nil =>
      exact ⟨alistSet m k v, rfl, by simp [getPath, alistGet_set_self]⟩
    | cons k2 rest' =>
      have hcons : ∀ (a a2 : List (String × NixVal)),
          getPath (alistSet m k (NixVal.attrs a2)) (k :: k2 :: rest') =
            getPath a2 (k2 :: rest') := by
        intro a a2
        exact getPath_cons _ a2 k _ (by simp) (by simp [alistGet_set_self])
      cases hget : alistGet m k with
      | none =>
        obtain ⟨a2, ha2, hleaf⟩ := ih [] (by simp)
          (fun i hi => Or.inl (getPath_nil_map _))
        refine ⟨alistSet m k (.attrs a2), ?_, ?_⟩
        · simp [setNestedValue, hget, ha2, Except.map]
        · rw [hcons a2 a2]; exact hleaf
      | some w =>
        have h0 := hok 0 (by simp)
        have hgp : getPath m ((k :: k2 :: rest').take 1) = some w := by
          simp [getPath, hget]
        rcases h0 with h0 | ⟨a, ha⟩
        · rw [hgp] at h0; cases h0
        · rw [hgp] at ha
          have hw : w = .attrs a := by injection ha
          subst hw
          have hok' : intermediatesOk a (k2 :: rest') := by
            intro i hi
            have := hok (i + 1) (by simpa using hi)
            rw [List.take_succ_cons,
              getPath_cons m a k _ (by simp [List.take_succ_cons]) hget] at this
            exact this
          obtain ⟨a2, ha2, hleaf⟩ := ih a (by simp) hok'
          refine ⟨alistSet m k (.attrs a2), ?_, ?_⟩
          · simp [setNestedValue, hget, ha2, Except.map]
          · rw [hcons a2 a2]; exact hleaf

theorem setNV_error (p : List String) (m : List (String × NixVal)) (v : NixVal)
    (i : Nat) (w : NixVal)
    (hi : i + 1 < p.length)
    (hpre : ∀ j, j < i → ∃ a, getPath m (p.take (j + 1)) = some (.attrs a))
    (hw : getPath m (p.take (i + 1)) = some w)
    (hprim : isPrimVal w = true) (htr : jsTruthy w = true) :
    setNestedValue m p v = .error "TypeError" := by
  induction p generalizing m i with
  | nil => simp at hi
  | cons k rest ih =>
    cases rest with
    | nil => simp at hi
    | cons k2 rest' =>
      cases i with
      | zero =>
        have hget : alistGet m k = some w := by simpa [getPath] using hw
        cases w with
        | attrs a => simp [isPrimVal] at hprim
        | list xs => simp [isPrimVal] at hprim
        | str s => simp [setNestedValue, hget, htr]
        | num n => simp [setNestedValue, hget, htr]
        | bool bb => simp [setNestedValue, hget, htr]
        | null => simp [jsTruthy] at htr
      | succ j =>
        obtain ⟨a, ha⟩ := hpre 0 (by omega)
        have hget : alistGet m k = some (.attrs a) := by simpa [getPath] using ha
        have hrec : setNestedValue a (k2 :: rest') v = .error "TypeError" := by
          refine ih a j (by simpa using hi) ?_ ?_
          · intro j' hj'
            obtain ⟨a', ha'⟩ := hpre (j' + 1) (by omega)
            refine ⟨a', ?_⟩
            rw [List.take_succ_cons,
              getPath_cons m a k _ (by simp [List.take_succ_cons]) hget] at ha'
            exact ha'
          · rw [← getPath_cons m a k _ (by simp [List.take_succ_cons]) hget,
              ← List.take_succ_cons]
            exact hw
        simp [setNestedValue, hget, hrec, Except.map]

theorem setParts_programs_eq (b : HomeManagerBuilder) (name p : String)
    (ps : List String) (v : NixVal) :
    HomeManagerBuilder.setParts b ("programs" :: name :: p :: ps) v =
      (setNestedValue b.programs (name :: p :: ps) v).map
        (fun m => { b with programs := m }) := by
  rw [HomeManagerBuilder.setParts, setNestedValue]
  cases hget : alistGet b.programs name with
  | none => cases hrec : setNestedValue [] (p :: ps) v <;> simp [Except.map, hrec]
  | some w =>
    cases w with
    | attrs a => cases hrec : setNestedValue a (p :: ps) v <;> simp [Except.map, hrec]
    | list xs => rfl
    | str s =>
      by_cases hjt : jsTruthy (.str s) = true
      · simp [hjt, Except.map]
      · simp only [Bool.not_eq_true] at hjt
        simp only [hjt, Bool.false_eq_true, if_false]
        cases hrec : setNestedValue [] (p :: ps) v <;> simp [Except.map, hrec]
    | num n =>
      by_cases hjt : jsTruthy (.num n) = true
      · simp [hjt, Except.map]
      · simp only [Bool.not_eq_true] at hjt
        simp only [hjt, Bool.false_eq_true, if_false]
        cases hrec : setNestedValue [] (p :: ps) v <;> simp [Except.map, hrec]
    | bool bb =>
      by_cases hjt : jsTruthy (.bool bb) = true
      · simp [hjt, Except.map]
      · simp only [Bool.not_eq_true] at hjt
        simp only [hjt, Bool.false_eq_true, if_false]
        cases hrec : setNestedValue [] (p :: ps) v <;> simp [Except.map, hrec]
    | null =>
      by_cases hjt : jsTruthy .null = true
      · simp [hjt, Except.map]
      · simp only [Bool.not_eq_true] at hjt
        simp only [hjt, Bool.false_eq_true, if_false]
        cases hrec : setNestedValue [] (p :: ps) v <;> simp [Except.map, hrec]

theorem setParts_services_eq (b : HomeManagerBuilder) (name p : String)
    (ps : List String) (v : NixVal) :
    HomeManagerBuilder.setParts b ("services" :: name :: p :: ps) v =
      (setNestedValue b.services (name :: p :: ps) v).map
        (fun m => { b with services := m }) := by
  rw [HomeManagerBuilder.setParts, setNestedValue]
  cases hget : alistGet b.services name with
  | none => cases hrec : setNestedValue [] (p :: ps) v <;> simp [Except.map, hrec]
  | some w =>
    cases w with
    | attrs a => cases hrec : setNestedValue a (p :: ps) v <;> simp [Except.map, hrec]
    | list xs => rfl
    | str s =>
      by_cases hjt : jsTruthy (.str s) = true
      · simp [hjt, Except.map]
      · simp only [Bool.not_eq_true] at hjt
        simp only [hjt, Bool.false_eq_true, if_false]
        cases hrec : setNestedValue [] (p :: ps) v <;> simp [Except.map, hrec]
    | num n =>
      by_cases hjt : jsTruthy (.num n) = true
      · simp [hjt, Except.map]
      · simp only [Bool.not_eq_true] at hjt
        simp only [hjt, Bool.false_eq_true, if_false]
        cases hrec : setNestedValue [] (p :: ps) v <;> simp [Except.map, hrec]
    | bool bb =>
      by_cases hjt : jsTruthy (.bool bb) = true
      · simp [hjt, Except.map]
      · simp only [Bool.not_eq_true] at hjt
        simp only [hjt, Bool.false_eq_true, if_false]
        cases hrec : setNestedValue [] (p :: ps) v <;> simp [Except.map, hrec]
    | null =>
      by_cases hjt : jsTruthy .null = true
      · simp [hjt, Except.map]
      · simp only [Bool.not_eq_true] at hjt
        simp only [hjt, Bool.false_eq_true, if_false]
        cases hrec : setNestedValue [] (p :: ps) v <;> simp [Except.map, hrec]

theorem setParts_home_eq (b : HomeManagerBuilder) (p : String)
    (ps : List String) (v : NixVal) :
    HomeManagerBuilder.setParts b ("home" :: p :: ps) v =
      (setNestedValue b.homeConfig (p :: ps) v).map
        (fun m => { b with homeConfig := m }) := rfl

/-- C2: after `programs.git.enable = true` is stored, a dotted-path
`set("programs.git.userName", "X")` keeps `enable` at `true` and adds
`userName` beside it; and in general a successful dotted-path set on the
`programs` namespace never changes any sibling key at any level along
the path, while (whenever every intermediate is absent or a mapping) it
creates the intermediate mappings on demand and writes exactly the
terminal leaf. -/
theorem claim_c2 :
    (∀ b1 : HomeManagerBuilder,
      getPath b1.programs ["git", "enable"] = some (.bool true) →
      ∃ b2, HomeManagerBuilder.set b1 "programs.git.userName" (.str "X") = .ok b2 ∧
        getPath b2.programs ["git", "enable"] = some (.bool true) ∧
        getPath b2.programs ["git", "userName"] = some (.str "X")) ∧
    (∀ (b : HomeManagerBuilder) (name p : String) (ps : List String)
        (v : NixVal) (b2 : HomeManagerBuilder),
      HomeManagerBuilder.setParts b ("programs" :: name :: p :: ps) v = .ok b2 →
      ∀ i k', i < (name :: p :: ps).length → (name :: p :: ps)[i]? ≠ some k' →
        getPath b2.programs ((name :: p :: ps).take i ++ [k']) =
          getPath b.programs ((name :: p :: ps).take i ++ [k'])) ∧
    (∀ (b : HomeManagerBuilder) (name p : String) (ps : List String) (v : NixVal),
      intermediatesOk b.programs (name :: p :: ps) →
      ∃ b2, HomeManagerBuilder.setParts b ("programs" :: name :: p :: ps) v = .ok b2 ∧
        getPath b2.programs (name :: p :: ps) = some v) := by
  refine ⟨?_, ?_, ?_⟩
  · intro b1 hen
    cases hget : alistGet b1.programs "git" with
    | none => rw [getPath_cons_none _ _ _ (by simp) (by simp [hget])] at hen; cases hen
    | some w =>
      cases w with
      | attrs a =>
        rw [getPath_cons _ a _ _ (by simp) hget] at hen
        have hen' : alistGet a "enable" = some (.bool true) := hen
        refine ⟨{ b1 with programs := alistSet b1.programs "git" (NixVal.attrs (alistSet a "userName" (NixVal.str "X"))) }, ?_, ?_, ?_⟩
        · show HomeManagerBuilder.setParts b1 ["programs", "git", "userName"] (.str "X") = _
          rw [setParts_programs_eq]
          simp [setNestedValue, hget, Except.map]
        · rw [getPath_cons _ (alistSet a "userName" (.str "X")) _ _ (by simp)
            (by simp [alistGet_set_self])]
          show alistGet (alistSet a "userName" (.str "X")) "enable" = _
          rw [alistGet_set_ne _ _ _ _ (by decide)]
          exact hen'
        · rw [getPath_cons _ (alistSet a "userName" (.str "X")) _ _ (by simp)
            (by simp [alistGet_set_self])]
          show alistGet (alistSet a "userName" (.str "X")) "userName" = _
          rw [alistGet_set_self]
      | str s => rw [getPath_cons_none _ _ _ (by simp) (by simp [hget])] at hen; cases hen
      | num n => rw [getPath_cons_none _ _ _ (by simp) (by simp [hget])] at hen; cases hen
      | bool bb => rw [getPath_cons_none _ _ _ (by simp) (by simp [hget])] at hen; cases hen
      | list xs => rw [getPath_cons_none _ _ _ (by simp) (by simp [hget])] at hen; cases hen
      | null => rw [getPath_cons_none _ _ _ (by simp) (by simp [hget])] at hen; cases hen
  · intro b name p ps v b2 h i k' hi hk
    rw [setParts_programs_eq] at h
    cases hrec : setNestedValue b.programs (name :: p :: ps) v with
    | error e => rw [hrec] at h; exact absurd h (by simp [Except.map])
    | ok m2 =>
      rw [hrec] at h
      have hb2 : b2 = { b with programs := m2 } := by
        simpa [Except.map] using h.symm
      subst hb2
      exact setNV_frame _ _ _ _ hrec i hi k' hk
  · intro b name p ps v hok
    obtain ⟨m2, hm2, hleaf⟩ := setNV_ok (name :: p :: ps) b.programs v (by simp) hok
    exact ⟨{ b with programs := m2 }, by rw [setParts_programs_eq, hm2]; rfl, hleaf⟩

/-- C2 witness: the spec's concrete scenario, applied to the state in
which `programs.git.enable = true` is already stored. -/
theorem claim_c2_witness :
    ∃ b2, HomeManagerBuilder.set
        ⟨"u", none, "24.05", [], [("git", NixVal.attrs [("enable", NixVal.bool true)])],
          [], [], []⟩
        "programs.git.userName" (.str "X") = .ok b2 ∧
      getPath b2.programs ["git", "enable"] = some (.bool true) ∧
      getPath b2.programs ["git", "userName"] = some (.str "X") :=
  claim_c2.1
    ⟨"u", none, "24.05", [], [("git", NixVal.attrs [("enable", NixVal.bool true)])],
      [], [], []⟩ rfl

/-- C9 counterexample: a *falsy* primitive intermediate does not make
the setter throw.  With `programs.git` holding the primitive `false`
(stored by `set("programs.git", false)`), the subsequent
`set("programs.git.userName", "X")` completes (`!current[part]` replaces
the falsy slot with a fresh mapping) instead of throwing a `TypeError`
as the claim states for every primitive intermediate. -/
theorem claim_c9_counterexample :
    HomeManagerBuilder.set (HomeManagerBuilder.init "u") "programs.git" (.bool false) =
      .ok ⟨"u", none, "24.05", [], [("git", NixVal.bool false)], [], [], []⟩ ∧
    HomeManagerBuilder.set
        ⟨"u", none, "24.05", [], [("git", NixVal.bool false)], [], [], []⟩
        "programs.git.userName" (.str "X") =
      .ok ⟨"u", none, "24.05", [],
        [("git", NixVal.attrs [("userName", NixVal.str "X")])], [], [], []⟩ :=
  ⟨rfl, rfl⟩

/-- C9 as amended: under `programs`, `services` and `home`, the dotted
setter throws a `TypeError` exactly when the traversal reaches a
*truthy* primitive intermediate (mappings at every earlier position);
a falsy primitive intermediate is instead replaced by an on-demand
empty mapping (see the counterexample); and under the precondition that
every intermediate position is absent or a mapping the setter never
throws. -/
theorem claim_c9 :
    (∀ (b : HomeManagerBuilder) (name p : String) (ps : List String) (v : NixVal)
        (i : Nat) (w : NixVal),
      i + 1 < (name :: p :: ps).length →
      (∀ j, j < i → ∃ a, getPath b.programs ((name :: p :: ps).take (j + 1)) =
        some (.attrs a)) →
      getPath b.programs ((name :: p :: ps).take (i + 1)) = some w →
      isPrimVal w = true → jsTruthy w = true →
      HomeManagerBuilder.setParts b ("programs" :: name :: p :: ps) v =
        .error "TypeError") ∧
    (∀ (b : HomeManagerBuilder) (name p : String) (ps : List String) (v : NixVal),
      intermediatesOk b.programs (name :: p :: ps) →
      ∃ b2, HomeManagerBuilder.setParts b ("programs" :: name :: p :: ps) v = .ok b2) ∧
    (∀ (b : HomeManagerBuilder) (name p : String) (ps : List String) (v : NixVal)
        (i : Nat) (w : NixVal),
      i + 1 < (name :: p :: ps).length →
      (∀ j, j < i → ∃ a, getPath b.services ((name :: p :: ps).take (j + 1)) =
        some (.attrs a)) →
      getPath b.services ((name :: p :: ps).take (i + 1)) = some w →
      isPrimVal w = true → jsTruthy w = true →
      HomeManagerBuilder.setParts b ("services" :: name :: p :: ps) v =
        .error "TypeError") ∧
    (∀ (b : HomeManagerBuilder) (name p : String) (ps : List String) (v : NixVal),
      intermediatesOk b.services (name :: p :: ps) →
      ∃ b2, HomeManagerBuilder.setParts b ("services" :: name :: p :: ps) v = .ok b2) ∧
    (∀ (b : HomeManagerBuilder) (p : String) (ps : List String) (v : NixVal)
        (i : Nat) (w : NixVal),
      i + 1 < (p :: ps).length →
      (∀ j, j < i → ∃ a, getPath b.homeConfig ((p :: ps).take (j + 1)) =
        some (.attrs a)) →
      getPath b.homeConfig ((p :: ps).take (i + 1)) = some w →
      isPrimVal w = true → jsTruthy w = true →
      HomeManagerBuilder.setParts b ("home" :: p :: ps) v = .error "TypeError") ∧
    (∀ (b : HomeManagerBuilder) (p : String) (ps : List String) (v : NixVal),
      intermediatesOk b.homeConfig (p :: ps) →
      ∃ b2, HomeManagerBuilder.setParts b ("home" :: p :: ps) v = .ok b2) := by
  refine ⟨?_, ?_, ?_, ?_, ?_, ?_⟩
  · intro b name p ps v i w hi hpre hw hprim htr
    rw [setParts_programs_eq,
      setNV_error (name :: p :: ps) b.programs v i w hi hpre hw hprim htr]
    rfl
  · intro b name p ps v hok
    obtain ⟨m2, hm2, _⟩ := setNV_ok (name :: p :: ps) b.programs v (by simp) hok
    exact ⟨{ b with programs := m2 }, by rw [setParts_programs_eq, hm2]; rfl⟩
  · intro b name p ps v i w hi hpre hw hprim htr
    rw [setParts_services_eq,
      setNV_error (name :: p :: ps) b.services v i w hi hpre hw hprim htr]
    rfl
  · intro b name p ps v hok
    obtain ⟨m2, hm2, _⟩ := setNV_ok (name :: p :: ps) b.services v (by simp) hok
    exact ⟨{ b with services := m2 }, by rw [setParts_services_eq, hm2]; rfl⟩
  · intro b p ps v i w hi hpre hw hprim htr
    rw [setParts_home_eq,
      setNV_error (p :: ps) b.homeConfig v i w hi hpre hw hprim htr]
    rfl
  · intro b p ps v hok
    obtain ⟨m2, hm2, _⟩ := setNV_ok (p :: ps) b.homeConfig v (by simp) hok
    exact ⟨{ b with homeConfig := m2 }, by rw [setParts_home_eq, hm2]; rfl⟩

/-- C9 witness: the claim's own example, `programs.git` holding the
truthy primitive `true`, makes the next dotted set throw. -/
theorem claim_c9_witness :
    HomeManagerBuilder.setParts
        ⟨"u", none, "24.05", [], [("git", NixVal.bool true)], [], [], []⟩
        ["programs", "git", "userName"] (.str "X") = .error "TypeError" :=
  claim_c9.1 ⟨"u", none, "24.05", [], [("git", NixVal.bool true)], [], [], []⟩
    "git" "userName" [] (.str "X") 0 (.bool true)
    (by simp) (by omega) rfl rfl rfl

theorem jsJoin_space_data (l : List String) :
    (jsJoin " " l).data = joinChars (l.map String.data) := by
  induction l with
  | nil => rfl
  | cons x rest ih =>
    cases rest with
    | nil => rfl
    | cons y rest' =>
      show (x ++ " " ++ jsJoin " " (y :: rest')).data = _
      rw [String.data_append, String.data_append, ih]
      show x.data ++ [' '] ++ _ = x.data ++ ' ' :: _
      simp

theorem splitWordsAux_word (w : List Char) (cs acc : List Char) (hw : ' ' ∉ w) :
    splitWordsAux (w ++ cs) acc = splitWordsAux cs (w.reverse ++ acc) := by
  induction w generalizing acc with
  | nil => simp
  | cons c w' ih =>
    have hc : ¬ c = ' ' := by
      intro hc; exact hw (hc ▸ List.mem_cons_self _ _)
    show splitWordsAux (c :: (w' ++ cs)) acc = _
    rw [splitWordsAux, if_neg hc,
      ih (c :: acc) (fun hmem => hw (List.mem_cons_of_mem _ hmem))]
    congr 1
    simp

theorem splitWordsAux_space_cons (cs acc : List Char) :
    splitWordsAux (' ' :: cs) acc =
      if acc.isEmpty then splitWordsAux cs []
      else acc.reverse :: splitWordsAux cs [] := by
  rw [splitWordsAux]
  simp

theorem splitWords_join (ws : List (List Char))
    (h : ∀ w ∈ ws, w ≠ [] ∧ ' ' ∉ w) :
    splitWordsAux (joinChars ws) [] = ws := by
  induction ws with
  | nil => rfl
  | cons w rest ih =>
    obtain ⟨hne, hsp⟩ := h w (List.mem_cons_self _ _)
    cases rest with
    | nil =>
      have hjc : joinChars [w] = w ++ [] := by simp [joinChars]
      rw [hjc, splitWordsAux_word w [] [] hsp, splitWordsAux]
      simp [hne]
    | cons w2 rest' =>
      show splitWordsAux (w ++ ' ' :: joinChars (w2 :: rest')) [] = _
      rw [splitWordsAux_word w _ [] hsp, List.append_nil, splitWordsAux_space_cons,
        if_neg (by simp [hne]), List.reverse_reverse,
        ih (fun x hx => h x (List.mem_cons_of_mem _ hx))]

theorem splitWords_join_pair (ws1 ws2 : List (List Char))
    (h1 : ∀ w ∈ ws1, w ≠ [] ∧ ' ' ∉ w) (h2 : ∀ w ∈ ws2, w ≠ [] ∧ ' ' ∉ w) :
    splitWordsAux (joinChars ws1 ++ ' ' :: joinChars ws2) [] = ws1 ++ ws2 := by
  induction ws1 with
  | nil =>
    show splitWordsAux (' ' :: joinChars ws2) [] = ws2
    rw [splitWordsAux_space_cons]
    simpa using splitWords_join ws2 h2
  | cons w rest ih =>
    obtain ⟨hne, hsp⟩ := h1 w (List.mem_cons_self _ _)
    cases rest with
    | nil =>
      show splitWordsAux ((w ++ ' ' :: joinChars ws2)) [] = _
      rw [splitWordsAux_word w _ [] hsp, List.append_nil, splitWordsAux_space_cons,
        if_neg (by simp [hne]), List.reverse_reverse, splitWords_join ws2 h2]
      rfl
    | cons w2 rest' =>
      show splitWordsAux ((w ++ ' ' :: joinChars (w2 :: rest')) ++ ' ' :: joinChars ws2) [] = _
      rw [List.cons_append, List.append_assoc, splitWordsAux_word w _ [] hsp,
        List.append_nil]
      show splitWordsAux (' ' :: (joinChars (w2 :: rest') ++ ' ' :: joinChars ws2)) _ = _
      rw [splitWordsAux_space_cons, if_neg (by simp [hne]), List.reverse_reverse,
        ih (fun x hx => h1 x (List.mem_cons_of_mem _ hx))]

theorem words_pkg_segment (b : DevShellBuilder)
    (hbase : ∀ q ∈ b.packages, ' ' ∉ q.data)
    (hpy : ∀ q ∈ b.pythonPackages, ' ' ∉ q.data) :
    wordsOf (b.pkgsList ++ " " ++ b.pyList) =
      b.packages.map (fun q => ("pkgs." ++ q).data) ++
      b.pythonPackages.map (fun q => ("pkgs.python3Packages." ++ q).data) := by
  have hdata : (b.pkgsList ++ " " ++ b.pyList).data =
      joinChars ((b.packages.map fun q => "pkgs." ++ q).map String.data) ++
        ' ' :: joinChars ((b.pythonPackages.map fun q => "pkgs.python3Packages." ++ q).map String.data) := by
    rw [String.data_append, String.data_append,
      DevShellBuilder.pkgsList, DevShellBuilder.pyList,
      jsJoin_space_data, jsJoin_space_data]
    simp
  rw [wordsOf, hdata, splitWords_join_pair]
  · simp [List.map_map]
    rfl
  · intro w hw
    simp only [List.map_map, List.mem_map, Function.comp] at hw
    obtain ⟨q, hq, rfl⟩ := hw
    constructor
    · rw [String.data_append]; simp
    · rw [String.data_append]
      intro hmem
      rcases List.mem_append.mp hmem with hm | hm
      · simp [String.data] at hm
      · exact hbase q hq hm
  · intro w hw
    simp only [List.map_map, List.mem_map, Function.comp] at hw
    obtain ⟨q, hq, rfl⟩ := hw
    constructor
    · rw [String.data_append]; simp
    · rw [String.data_append]
      intro hmem
      rcases List.mem_append.mp hmem with hm | hm
      · simp [String.data] at hm
      · exact hpy q hq hm

theorem applyPkgCalls_ok (allowed : String → Bool) (calls : List PkgCall) :
    ∀ b b2 : DevShellBuilder, applyPkgCalls allowed b calls = .ok b2 →
      b2.name = b.name ∧ b2.system = b.system ∧
      b2.packages = b.packages ++ basePkgsOf calls ∧
      b2.pythonPackages = b.pythonPackages ++ pyPkgsOf calls := by
  induction calls with
  | nil =>
    intro b b2 h
    have hb : b2 = b := by simpa [applyPkgCalls] using h.symm
    subst hb
    simp [basePkgsOf, pyPkgsOf]
  | cons c rest ih =>
    intro b b2 h
    cases c with
    | base ps =>
      rw [applyPkgCalls] at h
      obtain ⟨h1, h2, h3, h4⟩ := ih _ _ h
      refine ⟨h1, h2, ?_, ?_⟩
      · rw [h3]; simp [DevShellBuilder.withPackages, basePkgsOf]
      · rw [h4]; simp [DevShellBuilder.withPackages, pyPkgsOf]
    | python ps =>
      rw [applyPkgCalls] at h
      cases hv : DevShellBuilder.withPythonPackages allowed b ps with
      | error e => rw [hv] at h; cases h
      | ok bmid =>
        rw [hv] at h
        have hmid : bmid = { b with pythonPackages := b.pythonPackages ++ ps } := by
          rw [DevShellBuilder.withPythonPackages] at hv
          split at hv
          · simpa using hv.symm
          · cases hv
        subst hmid
        obtain ⟨h1, h2, h3, h4⟩ := ih _ _ h
        refine ⟨h1, h2, ?_, ?_⟩
        · rw [h3]; simp [basePkgsOf]
        · rw [h4]; simp [pyPkgsOf]

/-- C5: after any successful sequence of base/secondary package-append
calls (names being space-free identifiers), the stored lists are exactly
the appended names in call order, the rendered block embeds the single
flat bracketed invocation list, and that list's space-separated tokens
are exactly the namespaced base packages in insertion order followed by
the namespaced secondary packages in insertion order, duplicates kept. -/
theorem claim_c5 (allowed : String → Bool) (name : String) (calls : List PkgCall)
    (b2 : DevShellBuilder)
    (h : applyPkgCalls allowed (DevShellBuilder.init name) calls = .ok b2)
    (hbase : ∀ q ∈ basePkgsOf calls, ' ' ∉ q.data)
    (hpy : ∀ q ∈ pyPkgsOf calls, ' ' ∉ q.data) :
    b2.packages = basePkgsOf calls ∧
    b2.pythonPackages = pyPkgsOf calls ∧
    DevShellBuilder.toNix b2 =
      "      " ++ name ++ " = pkgs.mkShell \x7b\n        buildInputs = [ "
        ++ (b2.pkgsList ++ " " ++ b2.pyList) ++ " ];\n      \x7d;" ∧
    wordsOf (b2.pkgsList ++ " " ++ b2.pyList) =
      (basePkgsOf calls).map (fun q => ("pkgs." ++ q).data) ++
      (pyPkgsOf calls).map (fun q => ("pkgs.python3Packages." ++ q).data) := by
  obtain ⟨h1, h2, h3, h4⟩ := applyPkgCalls_ok allowed calls _ _ h
  simp only [DevShellBuilder.init, List.nil_append] at h3 h4
  refine ⟨h3, h4, ?_, ?_⟩
  · rw [DevShellBuilder.toNix, h1]
    simp [DevShellBuilder.init, String.append_assoc]
  · rw [words_pkg_segment b2 (h3 ▸ hbase) (h4 ▸ hpy), h3, h4]

/-- C5 witness: a concrete call sequence with a duplicate base
package and no secondary packages. -/
theorem claim_c5_witness :
    wordsOf (DevShellBuilder.pkgsList ⟨"dev", "x86_64-linux", ["git", "vim", "git"], []⟩
        ++ " " ++ DevShellBuilder.pyList ⟨"dev", "x86_64-linux", ["git", "vim", "git"], []⟩) =
      ["git", "vim", "git"].map (fun q => ("pkgs." ++ q).data) ++
      ([] : List String).map (fun q => ("pkgs.python3Packages." ++ q).data) :=
  (claim_c5 (fun _ => true) "dev" [.base ["git", "vim", "git"]]
    ⟨"dev", "x86_64-linux", ["git", "vim", "git"], []⟩
    rfl (by decide) (by decide)).2.2.2

theorem not_pref_of_idx (p s : List Char) (i : Nat) (hp : i < p.length)
    (hne : p[i]? ≠ s[i]?) : ¬ p <+: s := by
  rintro ⟨t, rfl⟩
  exact hne (List.getElem?_append_left hp).symm

theorem strStarts_false_of_lit (pat lit l : String) (rest : List Char)
    (hl : l.data = lit.data ++ rest) (i : Nat)
    (hi : i < lit.data.length) (hip : i < pat.data.length)
    (hne : pat.data[i]? ≠ lit.data[i]?) :
    ¬ strStarts pat l = true := by
  rw [strStarts, List.isPrefixOf_iff_prefix, hl]
  apply not_pref_of_idx _ _ i hip
  rw [List.getElem?_append_left hi]
  exact hne

theorem pref_space_split (A : List Char) : ∀ (C B D : List Char), ' ' ∉ A → ' ' ∉ C →
    (A ++ ' ' :: B <+: C ++ ' ' :: D) → A = C ∧ B <+: D := by
  induction A with
  | nil =>
    intro C B D hA hC h
    cases C with
    | nil =>
      rw [List.nil_append, List.nil_append, List.cons_prefix_cons] at h
      exact ⟨rfl, h.2⟩
    | cons c C' =>
      rw [List.nil_append, List.cons_append, List.cons_prefix_cons] at h
      exact absurd (h.1 ▸ List.mem_cons_self c C') hC
  | cons a A' ih =>
    intro C B D hA hC h
    cases C with
    | nil =>
      rw [List.cons_append, List.nil_append, List.cons_prefix_cons] at h
      exact absurd (h.1 ▸ List.mem_cons_self a A') hA
    | cons c C' =>
      rw [List.cons_append, List.cons_append, List.cons_prefix_cons] at h
      obtain ⟨h1, h2⟩ := h
      obtain ⟨hAC, hBD⟩ := ih C' B D (fun hm => hA (List.mem_cons_of_mem _ hm))
        (fun hm => hC (List.mem_cons_of_mem _ hm)) h2
      exact ⟨by rw [h1, hAC], hBD⟩

theorem mem_basicParts (b : HomeManagerBuilder) (l : String)
    (hl : l ∈ HomeManagerBuilder.basicParts b) :
    l = "    home.username = \"" ++ b.username ++ "\";" ∨
    (∃ d, b.homeDirectory = some d ∧ d.data ≠ [] ∧
      l = "    home.homeDirectory = \"" ++ d ++ "\";") ∨
    l = "    home.stateVersion = \"" ++ b.stateVersion ++ "\";" ∨
    (b.packages ≠ [] ∧ l = "    home.packages = with pkgs; [ "
      ++ jsJoin " " (b.packages.map fun p => "pkgs." ++ p) ++ " ];") := by
  unfold HomeManagerBuilder.basicParts at hl
  rcases List.mem_append.mp hl with h | hpk
  · rcases List.mem_append.mp h with h | hsv
    · rcases List.mem_append.mp h with huser | hhd
      · exact Or.inl (List.mem_singleton.mp huser)
      · refine Or.inr (Or.inl ?_)
        cases hdir : b.homeDirectory with
        | none => rw [hdir] at hhd; cases hhd
        | some d =>
          rw [hdir] at hhd
          by_cases hemp : d.data.isEmpty = true
          · simp [hemp] at hhd
          · simp only [hemp, Bool.false_eq_true, if_false, List.mem_singleton] at hhd
            exact ⟨d, rfl, by simpa [List.isEmpty_iff] using hemp, hhd⟩
    · exact Or.inr (Or.inr (Or.inl (List.mem_singleton.mp hsv)))
  · refine Or.inr (Or.inr (Or.inr ?_))
    by_cases hemp : b.packages.isEmpty = true
    · simp [hemp] at hpk
    · simp only [hemp, Bool.false_eq_true, if_false, List.mem_singleton] at hpk
      exact ⟨by simpa [List.isEmpty_iff] using hemp, hpk⟩

theorem entryPart_data (section_ name : String) (config : NixVal) :
    (HomeManagerBuilder.entryPart section_ name config).data =
      section_.data ++ (".".data ++ (name.data ++ (" = \x7b\n".data ++
        ((HomeManagerBuilder.stripBraces (toNixValue config 2)).data
          ++ "\n    \x7d;".data)))) := by
  rw [HomeManagerBuilder.entryPart]
  simp [String.data_append, List.append_assoc]

theorem homeCfgLine_data (k : String) (v : NixVal) :
    ("    home." ++ k ++ " = " ++ toNixValue v 1 ++ ";").data =
      "    home.".data ++ (k.data ++ ' ' :: ('=' :: ' ' ::
        ((toNixValue v 1).data ++ [';']))) := by
  simp [String.data_append, List.append_assoc]

theorem hd_line_iff (b : HomeManagerBuilder)
    (hsp : ∀ kv ∈ b.homeConfig, ' ' ∉ (kv.1 : String).data)
    (hhd : ∀ kv ∈ b.homeConfig, kv.1 ≠ "homeDirectory") :
    (∃ l ∈ HomeManagerBuilder.toNixParts b,
      strStarts "    home.homeDirectory = " l = true) ↔
    ∃ d, b.homeDirectory = some d ∧ d.data ≠ [] := by
  constructor
  · rintro ⟨l, hl, hst⟩
    unfold HomeManagerBuilder.toNixParts at hl
    rcases List.mem_append.mp hl with hl2 | hcfg
    · rcases List.mem_append.mp hl2 with hl3 | hserv
      · rcases List.mem_append.mp hl3 with hbasic | hprog
        · rcases mem_basicParts b l hbasic with h | ⟨d, hdir, hne, h⟩ | h | ⟨hpkne, h⟩
          · exact absurd hst (strStarts_false_of_lit _ "    home.username = \"" l
              (b.username.data ++ "\";".data)
              (by rw [h]; simp [String.data_append, List.append_assoc])
              9 (by decide) (by decide) (by decide))
          · exact ⟨d, hdir, hne⟩
          · exact absurd hst (strStarts_false_of_lit _ "    home.stateVersion = \"" l
              (b.stateVersion.data ++ "\";".data)
              (by rw [h]; simp [String.data_append, List.append_assoc])
              9 (by decide) (by decide) (by decide))
          · exact absurd hst (strStarts_false_of_lit _ "    home.packages = with pkgs; [ " l
              ((jsJoin " " (b.packages.map fun p => "pkgs." ++ p)).data ++ " ];".data)
              (by rw [h]; simp [String.data_append, List.append_assoc])
              9 (by decide) (by decide) (by decide))
        · obtain ⟨kv, hkv, rfl⟩ := List.mem_map.mp hprog
          exact absurd hst (strStarts_false_of_lit _ "    programs" _
            (".".data ++ (kv.1.data ++ (" = \x7b\n".data ++
              ((HomeManagerBuilder.stripBraces (toNixValue kv.2 2)).data
                ++ "\n    \x7d;".data))))
            (entryPart_data _ _ _) 4 (by decide) (by decide) (by decide))
      · obtain ⟨kv, hkv, rfl⟩ := List.mem_map.mp hserv
        exact absurd hst (strStarts_false_of_lit _ "    services" _
          (".".data ++ (kv.1.data ++ (" = \x7b\n".data ++
            ((HomeManagerBuilder.stripBraces (toNixValue kv.2 2)).data
              ++ "\n    \x7d;".data))))
          (entryPart_data _ _ _) 4 (by decide) (by decide) (by decide))
    · obtain ⟨kv, hkv, rfl⟩ := List.mem_map.mp hcfg
      rw [strStarts, List.isPrefixOf_iff_prefix] at hst
      have hpat : ("    home.homeDirectory = " : String).data =
          "    home.".data ++ ("homeDirectory".data ++ ' ' :: ['=', ' ']) := by decide
      rw [hpat, homeCfgLine_data] at hst
      have hsplit := (List.prefix_append_right_inj "    home.".data).mp hst
      have := pref_space_split "homeDirectory".data kv.1.data ['=', ' ']
        ('=' :: ' ' :: ((toNixValue kv.2 1).data ++ [';']))
        (by decide) (hsp kv hkv) hsplit
      exact absurd (String.ext this.1).symm (hhd kv hkv)
  · rintro ⟨d, hdir, hne⟩
    refine ⟨"    home.homeDirectory = \"" ++ d ++ "\";", ?_, ?_⟩
    · unfold HomeManagerBuilder.toNixParts
      apply List.mem_append_left
      apply List.mem_append_left
      apply List.mem_append_left
      unfold HomeManagerBuilder.basicParts
      rw [hdir]
      have hfalse : d.data.isEmpty = false := by
        cases hb : d.data.isEmpty
        · rfl
        · exact absurd (List.isEmpty_iff.mp hb) hne
      simp [hfalse]
    · rw [strStarts, List.isPrefixOf_iff_prefix]
      have hsplitLit : ("    home.homeDirectory = \"" : String).data =
          "    home.homeDirectory = ".data ++ ['"'] := by decide
      have hdata : ("    home.homeDirectory = \"" ++ d ++ "\";").data =
          "    home.homeDirectory = ".data ++ (['"'] ++ (d.data ++ "\";".data)) := by
        rw [String.data_append, String.data_append, hsplitLit]
        simp [List.append_assoc]
      rw [hdata]
      exact List.prefix_append _ _

theorem pk_line_iff (b : HomeManagerBuilder)
    (hsp : ∀ kv ∈ b.homeConfig, ' ' ∉ (kv.1 : String).data)
    (hpk : ∀ kv ∈ b.homeConfig, kv.1 ≠ "packages") :
    (∃ l ∈ HomeManagerBuilder.toNixParts b,
      strStarts "    home.packages = with pkgs; [ " l = true) ↔
    b.packages ≠ [] := by
  constructor
  · rintro ⟨l, hl, hst⟩
    unfold HomeManagerBuilder.toNixParts at hl
    rcases List.mem_append.mp hl with hl2 | hcfg
    · rcases List.mem_append.mp hl2 with hl3 | hserv
      · rcases List.mem_append.mp hl3 with hbasic | hprog
        · rcases mem_basicParts b l hbasic with h | ⟨d, hdir, hne, h⟩ | h | ⟨hpkne, h⟩
          · exact absurd hst (strStarts_false_of_lit _ "    home.username = \"" l
              (b.username.data ++ "\";".data)
              (by rw [h]; simp [String.data_append, List.append_assoc])
              9 (by decide) (by decide) (by decide))
          · exact absurd hst (strStarts_false_of_lit _ "    home.homeDirectory = \"" l
              (d.data ++ "\";".data)
              (by rw [h]; simp [String.data_append, List.append_assoc])
              9 (by decide) (by decide) (by decide))
          · exact absurd hst (strStarts_false_of_lit _ "    home.stateVersion = \"" l
              (b.stateVersion.data ++ "\";".data)
              (by rw [h]; simp [String.data_append, List.append_assoc])
              9 (by decide) (by decide) (by decide))
          · exact hpkne
        · obtain ⟨kv, hkv, rfl⟩ := List.mem_map.mp hprog
          exact absurd hst (strStarts_false_of_lit _ "    programs" _
            (".".data ++ (kv.1.data ++ (" = \x7b\n".data ++
              ((HomeManagerBuilder.stripBraces (toNixValue kv.2 2)).data
                ++ "\n    \x7d;".data))))
            (entryPart_data _ _ _) 4 (by decide) (by decide) (by decide))
      · obtain ⟨kv, hkv, rfl⟩ := List.mem_map.mp hserv
        exact absurd hst (strStarts_false_of_lit _ "    services" _
          (".".data ++ (kv.1.data ++ (" = \x7b\n".data ++
            ((HomeManagerBuilder.stripBraces (toNixValue kv.2 2)).data
              ++ "\n    \x7d;".data))))
          (entryPart_data _ _ _) 4 (by decide) (by decide) (by decide))
    · obtain ⟨kv, hkv, rfl⟩ := List.mem_map.mp hcfg
      rw [strStarts, List.isPrefixOf_iff_prefix] at hst
      have hpat : ("    home.packages = with pkgs; [ " : String).data =
          "    home.".data ++ ("packages".data ++ ' ' :: "= with pkgs; [ ".data) := by
        decide
      rw [hpat, homeCfgLine_data] at hst
      have hsplit := (List.prefix_append_right_inj "    home.".data).mp hst
      have := pref_space_split "packages".data kv.1.data "= with pkgs; [ ".data
        ('=' :: ' ' :: ((toNixValue kv.2 1).data ++ [';']))
        (by decide) (hsp kv hkv) hsplit
      exact absurd (String.ext this.1).symm (hpk kv hkv)
  · intro hne
    refine ⟨"    home.packages = with pkgs; [ "
      ++ jsJoin " " (b.packages.map fun p => "pkgs." ++ p) ++ " ];", ?_, ?_⟩
    · unfold HomeManagerBuilder.toNixParts
      apply List.mem_append_left
      apply List.mem_append_left
      apply List.mem_append_left
      unfold HomeManagerBuilder.basicParts
      have hfalse : b.packages.isEmpty = false := by
        cases hb : b.packages.isEmpty
        · rfl
        · exact absurd (List.isEmpty_iff.mp hb) hne
      simp [hfalse]
    · rw [strStarts, List.isPrefixOf_iff_prefix]
      have hdata : ("    home.packages = with pkgs; [ "
          ++ jsJoin " " (b.packages.map fun p => "pkgs." ++ p) ++ " ];").data =
          "    home.packages = with pkgs; [ ".data ++
            ((jsJoin " " (b.packages.map fun p => "pkgs." ++ p)).data ++ " ];".data) := by
        simp [String.data_append, List.append_assoc]
      rw [hdata]
      exact List.prefix_append _ _

/-- C7 counterexample to the claim as stated: `withHomeDirectory("")`
*was called*, yet the rendered parts contain no home-directory line,
because the empty string is falsy and `if (this.homeDirectory)` skips
the push. -/
theorem claim_c7_counterexample :
    (HomeManagerBuilder.withHomeDirectory (HomeManagerBuilder.init "u") "").homeDirectory
      = some "" ∧
    ¬ ∃ l ∈ HomeManagerBuilder.toNixParts
        (HomeManagerBuilder.withHomeDirectory (HomeManagerBuilder.init "u") ""),
      strStarts "    home.homeDirectory = " l = true := by
  refine ⟨rfl, ?_⟩
  rintro ⟨l, hl, hst⟩
  have hparts : HomeManagerBuilder.toNixParts
      (HomeManagerBuilder.withHomeDirectory (HomeManagerBuilder.init "u") "") =
      ["    home.username = \"u\";", "    home.stateVersion = \"24.05\";"] := by decide
  rw [hparts] at hl
  rcases List.mem_cons.mp hl with rfl | hl
  · exact absurd hst (by decide)
  · rcases List.mem_cons.mp hl with rfl | hl
    · exact absurd hst (by decide)
    · cases hl

/-- C7 as amended: the rendered parts always contain the username and
state-version lines (the version defaulting to `"24.05"` and overwritten
by `withStateVersion`); they contain a home-directory line if and only
if the stored home directory is a *non-empty* string (an empty string,
being falsy, is skipped — see the counterexample); and a packages line
if and only if the package list is non-empty.  The two iffs assume the
extra home-settings keys are space-free and distinct from
`homeDirectory`/`packages`, since an extra setting under those keys
would forge an identically-shaped line. -/
theorem claim_c7 (b : HomeManagerBuilder) (u ver : String)
    (hsp : ∀ kv ∈ b.homeConfig, ' ' ∉ (kv.1 : String).data)
    (hhd : ∀ kv ∈ b.homeConfig, kv.1 ≠ "homeDirectory")
    (hpk : ∀ kv ∈ b.homeConfig, kv.1 ≠ "packages") :
    ("    home.username = \"" ++ b.username ++ "\";") ∈ HomeManagerBuilder.toNixParts b ∧
    ("    home.stateVersion = \"" ++ b.stateVersion ++ "\";")
      ∈ HomeManagerBuilder.toNixParts b ∧
    ((∃ l ∈ HomeManagerBuilder.toNixParts b,
        strStarts "    home.homeDirectory = " l = true) ↔
      ∃ d, b.homeDirectory = some d ∧ d.data ≠ []) ∧
    ((∃ l ∈ HomeManagerBuilder.toNixParts b,
        strStarts "    home.packages = with pkgs; [ " l = true) ↔
      b.packages ≠ []) ∧
    (HomeManagerBuilder.init u).stateVersion = "24.05" ∧
    (HomeManagerBuilder.withStateVersion b ver).stateVersion = ver ∧
    HomeManagerBuilder.toNix b = jsJoin "\n" (HomeManagerBuilder.toNixParts b) := by
  refine ⟨?_, ?_, hd_line_iff b hsp hhd, pk_line_iff b hsp hpk, rfl, rfl, rfl⟩
  · unfold HomeManagerBuilder.toNixParts
    apply List.mem_append_left
    apply List.mem_append_left
    apply List.mem_append_left
    unfold HomeManagerBuilder.basicParts
    simp
  · unfold HomeManagerBuilder.toNixParts
    apply List.mem_append_left
    apply List.mem_append_left
    apply List.mem_append_left
    unfold HomeManagerBuilder.basicParts
    simp

/-- C7 witness: a builder with a non-empty home directory does render
the home-directory line. -/
theorem claim_c7_witness :
    ∃ l ∈ HomeManagerBuilder.toNixParts
      ⟨"u", some "/home/u", "24.05", ["git"], [], [], [], []⟩,
      strStarts "    home.homeDirectory = " l = true :=
  (claim_c7 ⟨"u", some "/home/u", "24.05", ["git"], [], [], [], []⟩ "x" "v"
    (by simp) (by simp) (by simp)).2.2.1.mpr ⟨"/home/u", rfl, by decide⟩
